import Mathlib

/-!
Verification development for `codeclip.py`: a shallow embedding of the
traversal-and-filtering engine (`get_filtered_directory_structure`) and the
document builder (`process_files`), together with theorems about the claimed
behaviour.

Modelling conventions:
* A directory tree is a mutual inductive (`Entry`/`EList`); each directory
  entry carries the data the program can observe: for files the outcome of
  `os.stat` and of `open(...).read()`, for directories a `den` flag meaning
  "listing this directory raises PermissionError" (for `os.listdir`) /
  "`os.walk` silently skips it" (matching `os.walk`'s default `onerror=None`).
* Python exceptions are a `PyErr` value (kind + the `str(e)` rendering,
  modelled as stored data since the exact message text is interpreter state).
* File bytes are a list of `Chunk`s: maximal well-formed UTF-8 runs
  (already decoded) and runs of undecodable bytes.  `open(..., errors='replace')`
  maps each undecodable byte to U+FFFD and never raises; `decodeReplace`
  models exactly that contract.
* Paths are joined with "/" (POSIX `os.path.join` / `os.path.relpath` for a
  path below the root); the empty string stands for the relative path "." of
  the root itself, and `os.path.abspath(directory)` is modelled as the given
  `directory` string (the embedding takes the root path as already absolute).
* Python string operations are re-implemented over `String.data` so that all
  definitions evaluate inside the kernel: `strEndsWith` is `str.endswith`,
  `strLe` is the code-point lexicographic `<=` used by `sorted`, `strSplitNl`
  is `str.split("\n")`.
* `sorted` (a stable sort by the name strings) is modelled by
  `List.insertionSort` on (name, payload) pairs, which is stable and sorted,
  hence extensionally equal to Python's stable sort keyed on the names.
* The float arithmetic of `format_size` divides by 1024 only, which is exact
  in binary floating point, so the running value is exactly
  `size_bytes / 2 ^ shift`; the model tracks that dyadic number as the pair
  `(size_bytes, shift)` and renders `f"{x:.2f}"` by correctly rounding the
  exact value to two decimals with ties to even, which is what CPython's
  float formatting does (exact for sizes within the 2^53 float range).
-/

namespace Codeclip

/-- Python `str.endswith(suffix)`, over the character data. -/
def strEndsWith (s suffix : String) : Bool := suffix.data.isSuffixOf s.data

/-- Test that `p` is an initial segment of `s` (used for stating properties of output lines). -/
def strStarts (s p : String) : Bool := p.data.isPrefixOf s.data

/-- Code-point lexicographic order on character lists, as Python compares strings. -/
def listLe : List Char → List Char → Bool
  | [], _ => true
  | _ :: _, [] => false
  | a :: as, b :: bs =>
    if a.toNat = b.toNat then listLe as bs else decide (a.toNat < b.toNat)

/-- Python's `<=` on strings (code-point lexicographic), used by `sorted`. -/
def strLe (a b : String) : Bool := listLe a.data b.data

/-- Split a character list at every occurrence of `c` (Python `str.split(c)`). -/
def splitCh (c : Char) : List Char → List (List Char)
  | [] => [[]]
  | x :: xs =>
    let r := splitCh c xs
    if x = c then [] :: r
    else
      match r with
      | [] => [[x]]
      | h :: t => (x :: h) :: t

/-- Python `s.split("\n")`. -/
def strSplitNl (s : String) : List String := (splitCh '\n' s.data).map String.mk

/-- Whether the character `c` occurs in `s`. -/
def strHasChar (s : String) (c : Char) : Bool := s.data.contains c

/-- Kinds of Python exceptions relevant to `process_files`. -/
inductive PyErrKind where
  | permissionError
  | unicodeDecodeError
  | isADirectoryError
  | fileNotFoundError
  | otherOSError
deriving Repr, DecidableEq

/-- A raised Python exception: its class and its `str(e)` rendering
(the message text is interpreter state, modelled as stored data). -/
structure PyErr where
  kind : PyErrKind
  msg : String
deriving Repr, DecidableEq

/-- The exception classes caught by the per-file handler in `process_files`
(line 152: `except (PermissionError, UnicodeDecodeError, IsADirectoryError)`). -/
def catchableErr (e : PyErr) : Bool :=
  match e.kind with
  | .permissionError => true
  | .unicodeDecodeError => true
  | .isADirectoryError => true
  | _ => false

instance {ε α : Type} [DecidableEq ε] [DecidableEq α] : DecidableEq (Except ε α) := fun a b =>
  match a, b with
  | .ok x, .ok y => if h : x = y then .isTrue (by rw [h]) else .isFalse (by simp [h])
  | .error x, .error y => if h : x = y then .isTrue (by rw [h]) else .isFalse (by simp [h])
  | .ok _, .error _ => .isFalse (by simp)
  | .error _, .ok _ => .isFalse (by simp)

/-- A file's raw bytes, segmented into maximal well-formed UTF-8 runs
(stored already decoded) and runs of bytes that do not decode. -/
inductive Chunk where
  | valid (s : String)
  | invalid (nBytes : Nat)
deriving Repr, DecidableEq

/-- U+FFFD, the marker substituted by `errors='replace'`. -/
def replacementChar : Char := '�'

/-- Decoding of one byte run under `errors='replace'`: well-formed runs decode
to themselves, each undecodable byte becomes one U+FFFD. -/
def chunkText : Chunk → String
  | .valid s => s
  | .invalid n => String.mk (List.replicate n replacementChar)

/-- Reading via `open(file, 'r', encoding='utf-8', errors='replace')`: decoding
never raises; undecodable bytes are replaced. -/
def decodeReplace (cs : List Chunk) : String := String.join (cs.map chunkText)

/-- Whether some byte run of the file fails to decode as UTF-8. -/
def hasInvalidChunk (cs : List Chunk) : Bool :=
  cs.any fun c => match c with | .invalid _ => true | .valid _ => false

/-- Result of a successful `os.stat`: the size in bytes and the
`datetime.fromtimestamp(st_mtime).strftime('%Y-%m-%d %H:%M:%S')` rendering
(modelled as stored data: the rendering depends on the local time zone). -/
structure StatInfo where
  st_size : Nat
  mtimeStr : String
deriving Repr, DecidableEq

/-- What the program can observe of one regular file: the outcome of
`os.stat` and the outcome of opening and reading it. -/
structure FileData where
  statRes : Except PyErr StatInfo
  readRes : Except PyErr (List Chunk)
deriving Repr, DecidableEq

mutual
/-- One directory entry: a file with its observable data, or a subdirectory
with its listing; `den` records that listing the directory is denied. -/
inductive Entry where
  | file (name : String) (fd : FileData)
  | dir (name : String) (den : Bool) (sub : EList)
deriving Repr, DecidableEq
/-- A directory listing, in the (arbitrary) order the OS enumerates it. -/
inductive EList where
  | nil
  | cons (e : Entry) (rest : EList)
deriving Repr, DecidableEq
end

/-- View an `EList` as a `List`. -/
def EList.toList : EList → List Entry
  | .nil => []
  | .cons e rest => e :: rest.toList

/-- Build an `EList` from a `List`. -/
def EList.ofList : List Entry → EList
  | [] => .nil
  | e :: rest => .cons e (EList.ofList rest)

/-- The name of an entry. -/
def Entry.name : Entry → String
  | .file n _ => n
  | .dir n _ _ => n

/-- POSIX `os.path.join(path, item)` for a relative `item`. -/
def pjoin (p n : String) : String := p ++ "/" ++ n

/-- Python `os.path.relpath(os.path.join(root, name), directory)` where `relDir` is
the relative path of `root` ("" standing for Python's "."). -/
def joinRel (relDir n : String) : String := if relDir = "" then n else relDir ++ "/" ++ n

/-- Number of occurrences of `c` in `s` (Python `str.count`). -/
def countChar (s : String) (c : Char) : Nat := (s.data.filter (fun x => x = c)).length

/-- Line 111: `current_depth = 0 if relative_path == '.' else relative_path.count(os.sep) + 1`. -/
def curDepth (relDir : String) : Nat := if relDir = "" then 0 else countChar relDir '/' + 1

/-- Lines 30-34, `should_include_file`: `None` means include everything,
otherwise `any(file_path.endswith('.' + ext) for ext in extensions)`. -/
def should_include_file (filePath : String) (exts : Option (List String)) : Bool :=
  match exts with
  | none => true
  | some es => es.any fun e => strEndsWith filePath ("." ++ e)

/-- Line 118, the file filter of the `process_files` walk:
`if extensions and not any(file.endswith('.' + ext) ...): continue` —
a falsy (`None` or empty) extension list lets every file through. -/
def walkFileFilter (exts : Option (List String)) (fileName : String) : Bool :=
  match exts with
  | none => true
  | some es => es.isEmpty || es.any fun e => strEndsWith fileName ("." ++ e)

/-- Render the exact dyadic value `num / 2 ^ shift` as `f"{x:.2f}"` does:
correctly rounded to two decimals, ties to even. -/
def twoDecRender (num shift : Nat) : String :=
  let den := 2 ^ shift
  let scaled := num * 100
  let q := scaled / den
  let r := scaled % den
  let rounded :=
    if 2 * r < den then q
    else if den < 2 * r then q + 1
    else if q % 2 = 0 then q else q + 1
  toString (rounded / 100) ++ "." ++
    (if rounded % 100 < 10 then "0" else "") ++ toString (rounded % 100)

/-- Lines 22-27, the loop of `format_size`: the running float is exactly
`num / 2 ^ shift` (division by 1024 is exact in binary floating point);
`size_bytes < 1024` is `num / 2 ^ shift < 1024`, i.e. `num < 1024 * 2 ^ shift`,
and `size_bytes /= 1024` adds 10 to the shift. -/
def formatSizeLoop : Nat → Nat → List String → String
  | num, shift, [u] => twoDecRender num shift ++ " " ++ u
  | num, shift, u :: us =>
    if num < 1024 * 2 ^ shift then twoDecRender num shift ++ " " ++ u
    else formatSizeLoop num (shift + 10) us
  | _, _, [] => ""

/-- Lines 22-27, `format_size`. -/
def format_size (size_bytes : Nat) : String :=
  formatSizeLoop size_bytes 0 ["B", "KB", "MB", "GB"]

/-- Specification-side unit selection: the first `k` with
`size / 1024 ^ k < 1024` (i.e. `size < 1024 ^ (k+1)`), with GB (`k = 3`) forced. -/
def sizeUnitIdx (n : Nat) : Nat :=
  if n < 1024 then 0 else if n < 1024 ^ 2 then 1 else if n < 1024 ^ 3 then 2 else 3

/-- The unit names, indexed by the number of divisions by 1024. -/
def sizeUnitName : Nat → String
  | 0 => "B"
  | 1 => "KB"
  | 2 => "MB"
  | _ => "GB"

/-- Line 39: `max_depth is not None and current_depth > max_depth` (the
`"..."` placeholder guard of the sketch builder). -/
def depthPlaceholder (maxd : Option Nat) (cd : Nat) : Bool :=
  match maxd with
  | some m => decide (m < cd)
  | none => false

/-- Line 70: `max_depth is None or current_depth < max_depth` (the sketch
builder's recursion guard). -/
def recurseOK (maxd : Option Nat) (cd : Nat) : Bool :=
  match maxd with
  | none => true
  | some m => decide (cd < m)

/-- Line 112: `max_depth is not None and current_depth >= max_depth` (the
walk's stop test: clear the pending subdirectories and `continue`). -/
def depthStop (maxd : Option Nat) (d : Nat) : Bool :=
  match maxd with
  | some m => decide (m ≤ d)
  | none => false

/-- Line 75: `"  " + "\n  ".join(sub_structure.split("\n"))`. -/
def indentBlock (s : String) : String := "  " ++ String.intercalate "\n  " (strSplitNl s)

/-- Python `sorted(...)` keyed on the name: a stable sort on (name, payload) pairs,
extensionally equal to Python's stable sort by the name strings. -/
def sortPairs {α : Type} (ps : List (String × α)) : List (String × α) :=
  List.insertionSort (fun a b => strLe a.1 b.1 = true) ps

/-- Concatenate the per-item line lists. -/
def flattenPairs (ps : List (String × List String)) : List String :=
  (ps.map Prod.snd).flatten

/-- Lines 56-59, the subtree pre-check: `os.walk(item_path)` visits every
subtree (the loop over `exclude_dirs` at lines 62-66 is a no-op: its
`continue` only advances that inner loop, and `os.walk`'s pending list is
never pruned), `any(should_include_file(os.path.join(root, f), extensions)
for f in files)` tests full paths; the walk yields nothing below a directory
whose listing is denied (`onerror=None`).  Disjunction order differs from
the walk's visit order, which does not change the value of `any`. -/
def subtreeAnyMatch (exts : Option (List String)) : String → EList → Bool
  | _, .nil => false
  | path, .cons (.file n _) rest =>
    should_include_file (pjoin path n) exts || subtreeAnyMatch exts path rest
  | path, .cons (.dir n den s) rest =>
    (!den && subtreeAnyMatch exts (pjoin path n) s) || subtreeAnyMatch exts path rest

/-- The `has_matching_files` flag for a directory entry: `os.walk` of a denied
directory yields nothing at all. -/
def subtreeHasMatch (exts : Option (List String)) (path : String) (den : Bool) (s : EList) : Bool :=
  !den && subtreeAnyMatch exts path s

/-- Lines 44-77, the per-item loop body of `get_filtered_directory_structure`:
for each listed item, the lines it contributes (paired with its name for
sorting).  Directory case, line 49: skipped when `exclude_dirs and item in
exclude_dirs`; line 68: shown when `has_matching_files or extensions is None`;
lines 70-75: recurse when `max_depth is None or current_depth < max_depth`
and append the indented sub-sketch when it is non-empty (`if sub_structure:`).
The recursive call is inlined (see `sketchItems_eq_map` below for the
recomposition through `get_filtered_directory_structure`). -/
def sketchItems (exts : Option (List String)) (excl : List String) (maxd : Option Nat)
    (path : String) (cd : Nat) : EList → List (String × List String)
  | .nil => []
  | .cons (.file n _) rest =>
    (n, if should_include_file (pjoin path n) exts then [n] else []) ::
      sketchItems exts excl maxd path cd rest
  | .cons (.dir n den s) rest =>
    (n,
      if excl ≠ [] ∧ n ∈ excl then []
      else if subtreeHasMatch exts (pjoin path n) den s || exts.isNone then
        (n ++ "/") ::
          (if recurseOK maxd cd then
            let subLines : List String :=
              if den then ["(Permission denied)"]
              else flattenPairs (sortPairs (sketchItems exts excl maxd (pjoin path n) (cd + 1) s))
            let subStr : String :=
              if depthPlaceholder maxd (cd + 1) then "..." else String.intercalate "\n" subLines
            if subStr = "" then [] else [indentBlock subStr]
          else [])
      else []) ::
      sketchItems exts excl maxd path cd rest

/-- The list `structure` of one invocation of
`get_filtered_directory_structure` before `"\n".join`: the
`(Permission denied)` placeholder when `os.listdir` raises, otherwise the
per-item contributions in sorted order of the item names (line 44). -/
def sketchLevelLines (exts : Option (List String)) (excl : List String) (maxd : Option Nat)
    (path : String) (cd : Nat) (den : Bool) (l : EList) : List String :=
  if den then ["(Permission denied)"]
  else flattenPairs (sortPairs (sketchItems exts excl maxd path cd l))

/-- Lines 37-81, `get_filtered_directory_structure`. -/
def get_filtered_directory_structure (exts : Option (List String)) (excl : List String)
    (maxd : Option Nat) (path : String) (cd : Nat) (den : Bool) (l : EList) : String :=
  if depthPlaceholder maxd cd then "..."
  else String.intercalate "\n" (sketchLevelLines exts excl maxd path cd den l)

/-- The contribution of one listed item, written through the wrappers
(equal to the head produced by `sketchItems`, see `sketchItems_eq_map`). -/
def sketchItemOf (exts : Option (List String)) (excl : List String) (maxd : Option Nat)
    (path : String) (cd : Nat) : Entry → String × List String
  | .file n _ => (n, if should_include_file (pjoin path n) exts then [n] else [])
  | .dir n den s =>
    (n,
      if excl ≠ [] ∧ n ∈ excl then []
      else if subtreeHasMatch exts (pjoin path n) den s || exts.isNone then
        (n ++ "/") ::
          (if recurseOK maxd cd then
            let subStr :=
              get_filtered_directory_structure exts excl maxd (pjoin path n) (cd + 1) den s
            if subStr = "" then [] else [indentBlock subStr]
          else [])
      else [])

/-- Line 153: the error block `# ERROR reading <relpath>: <str(e)>` plus the
blank separator. -/
def errLines (rel : String) (e : PyErr) : List String :=
  ["# ERROR reading " ++ rel ++ ": " ++ e.msg, ""]

/-- Line 129: `max_size is not None and file_size > max_size * 1024`. -/
def sizeTooBig (maxsz : Option Nat) (n : Nat) : Bool :=
  match maxsz with
  | some s => decide (s * 1024 < n)
  | none => false

/-- Lines 130-132: the `SKIPPED (TOO LARGE)` block. -/
def skipLines (rel : String) (sz : Nat) : List String :=
  ["# SKIPPED (TOO LARGE): " ++ rel, "# Size: " ++ format_size sz, ""]

/-- Lines 139-141: the header lines appended before the file is opened. -/
def headerLines (rel : String) (st : StatInfo) : List String :=
  ["## File: " ++ rel,
   "## Size: " ++ format_size st.st_size ++ " | Last Modified: " ++ st.mtimeStr,
   "```"]

/-- Lines 121-154, the per-file body of the walk loop, with its `try` block:
an uncaught exception (anything but PermissionError, UnicodeDecodeError,
IsADirectoryError) propagates as `.error`; a caught one yields the error
block — after the already-appended header lines when `open` was reached. -/
def processOneFile (maxsz : Option Nat) (rel : String) (fd : FileData) :
    Except PyErr (List String × Nat) :=
  match fd.statRes with
  | .error e => if catchableErr e then .ok (errLines rel e, 0) else .error e
  | .ok st =>
    if sizeTooBig maxsz st.st_size then .ok (skipLines rel st.st_size, 0)
    else
      match fd.readRes with
      | .error e =>
        if catchableErr e then .ok (headerLines rel st ++ errLines rel e, 0) else .error e
      | .ok cs => .ok (headerLines rel st ++ [decodeReplace cs, "```", ""], 1)

/-- Sequencing of two walk fragments: an exception in the first aborts the
whole walk (the partially built `result` is discarded by the top-level
handler); otherwise lines concatenate and counts add. -/
def combineEx (a b : Except PyErr (List String × Nat)) : Except PyErr (List String × Nat) :=
  match a with
  | .error e => .error e
  | .ok (ls, c) =>
    match b with
    | .error e => .error e
    | .ok (ls2, c2) => .ok (ls ++ ls2, c + c2)

/-- The file entries of a listing, in enumeration order. -/
def filePairs : EList → List (String × FileData)
  | .nil => []
  | .cons (.file n fd) rest => (n, fd) :: filePairs rest
  | .cons (.dir _ _ _) rest => filePairs rest

/-- Lines 116-154: the loop `for file in sorted(files)` of one `os.walk`
step, with the extension filter of line 118. -/
def walkFilesAcc (exts : Option (List String)) (maxsz : Option Nat) (relDir : String) :
    List (String × FileData) → Except PyErr (List String × Nat)
  | [] => .ok ([], 0)
  | (n, fd) :: rest =>
    if walkFileFilter exts n then
      combineEx (processOneFile maxsz (joinRel relDir n) fd)
        (walkFilesAcc exts maxsz relDir rest)
    else walkFilesAcc exts maxsz relDir rest

/-- Lines 105-154: the `os.walk` traversal below one directory, visiting the
pending subdirectories in enumeration order (the code sorts only `files`,
line 116, never `dirs`).  Line 107 prunes subdirectories named in
`exclude_dirs`; a denied directory is skipped silently by `os.walk`; at
depth `>= max_depth` the node contributes nothing (`dirs[:] = []` and
`continue` skip both descent and the files of that level).  The body of the
skipped-or-visited subdirectory is inlined (see `walkChildren_cons_dir`). -/
def walkChildren (exts : Option (List String)) (excl : List String) (maxsz maxd : Option Nat) :
    String → EList → Except PyErr (List String × Nat)
  | _, .nil => .ok ([], 0)
  | relDir, .cons (.file _ _) rest => walkChildren exts excl maxsz maxd relDir rest
  | relDir, .cons (.dir n den s) rest =>
    if n ∈ excl then walkChildren exts excl maxsz maxd relDir rest
    else
      combineEx
        (let relD := joinRel relDir n
          if den then .ok ([], 0)
          else if depthStop maxd (curDepth relD) then .ok ([], 0)
          else
            combineEx (walkFilesAcc exts maxsz relD (sortPairs (filePairs s)))
              (walkChildren exts excl maxsz maxd relD s))
        (walkChildren exts excl maxsz maxd relDir rest)

/-- One `os.walk` step at a directory plus the traversal below it: the depth
test of lines 110-114, the sorted file loop, then the subdirectories. -/
def walkDirNode (exts : Option (List String)) (excl : List String) (maxsz maxd : Option Nat)
    (relDir : String) (den : Bool) (l : EList) : Except PyErr (List String × Nat) :=
  if den then .ok ([], 0)
  else if depthStop maxd (curDepth relDir) then .ok ([], 0)
  else
    combineEx (walkFilesAcc exts maxsz relDir (sortPairs (filePairs l)))
      (walkChildren exts excl maxsz maxd relDir l)

/-- Lines 84-159, `process_files`: the summary line (inserted at index 0),
the fenced structure sketch, the `Source Files` section, and the walk output,
joined with newlines; an uncaught exception aborts the whole build.
`os.path.abspath(directory)` is modelled as the given `directory` string. -/
def process_files (directory : String) (exts : Option (List String)) (excl : List String)
    (maxsz maxd : Option Nat) (rootDen : Bool) (l : EList) : Except PyErr String :=
  match walkDirNode exts excl maxsz maxd "" rootDen l with
  | .error e => .error e
  | .ok (ls, c) =>
    .ok (String.intercalate "\n"
      (("# CodeClip Output - " ++ toString c ++ " files from " ++ directory ++ "\n")
        :: "# Directory Structure (Filtered)\n```"
        :: get_filtered_directory_structure exts excl maxd directory 0 rootDen l
        :: "```\n"
        :: "# Source Files\n"
        :: ls))

/-- All `os.stat` / read failures in the tree are of the caught classes
(PermissionError, UnicodeDecodeError, IsADirectoryError). -/
def okOrCatchable {α : Type} : Except PyErr α → Bool
  | .ok _ => true
  | .error e => catchableErr e

/-- Every file in the tree fails (if at all) only with caught exception classes. -/
def allCatchableE : EList → Bool
  | .nil => true
  | .cons (.file _ fd) rest =>
    okOrCatchable fd.statRes && okOrCatchable fd.readRes && allCatchableE rest
  | .cons (.dir _ _ s) rest => allCatchableE s && allCatchableE rest

/-- No entry name anywhere in the tree contains the path separator
(true of every real directory tree). -/
def namesSlashFreeE : EList → Bool
  | .nil => true
  | .cons (.file n _) rest => !strHasChar n '/' && namesSlashFreeE rest
  | .cons (.dir n _ s) rest => !strHasChar n '/' && namesSlashFreeE s && namesSlashFreeE rest

/-- A readable file whose decoded content is not itself a single string of
the exact shape of a file header line. -/
def contentNotHeaderlike (fd : FileData) : Bool :=
  match fd.readRes with
  | .ok cs => !strStarts (decodeReplace cs) "## File: "
  | .error _ => true

/-- No file content in the tree coincides with a `## File: ` header line. -/
def noHeaderContentE : EList → Bool
  | .nil => true
  | .cons (.file _ fd) rest => contentNotHeaderlike fd && noHeaderContentE rest
  | .cons (.dir _ _ s) rest => noHeaderContentE s && noHeaderContentE rest

/-- The names of one directory listing, in enumeration order. -/
def levelNames (l : EList) : List String := (EList.toList l).map Entry.name

/-- A well-formed entry name: no path separator and no leading blank
(every POSIX file name is separator-free; the leading-blank condition keeps
names apart from the two-space indentation of nested sketch lines). -/
def goodName (n : String) : Bool := !strHasChar n '/' && !strStarts n " "

/-- The names of a listing are pairwise distinct (as the OS guarantees)
and well formed. -/
def levelWF (l : EList) : Prop :=
  (levelNames l).Nodup ∧ ∀ n ∈ levelNames l, goodName n = true

instance (l : EList) : Decidable (levelWF l) := by
  unfold levelWF
  infer_instance

/-- The relative paths of the files the walk loop iterates at one level:
sorted, and filtered by the extension test of line 118. -/
def traversedHere (exts : Option (List String)) (relDir : String) (l : EList) : List String :=
  ((sortPairs (filePairs l)).filter fun p => walkFileFilter exts p.1).map
    fun p => joinRel relDir p.1

/-- The relative paths of all files iterated below one directory, mirroring
the control flow of `walkChildren` (pruning, denied directories, the depth
stop) without the per-file processing. -/
def traversedChildren (exts : Option (List String)) (excl : List String) (maxd : Option Nat) :
    String → EList → List String
  | _, .nil => []
  | relDir, .cons (.file _ _) rest => traversedChildren exts excl maxd relDir rest
  | relDir, .cons (.dir n den s) rest =>
    if n ∈ excl then traversedChildren exts excl maxd relDir rest
    else
      (let relD := joinRel relDir n
        if den then []
        else if depthStop maxd (curDepth relD) then []
        else traversedHere exts relD s ++ traversedChildren exts excl maxd relD s)
      ++ traversedChildren exts excl maxd relDir rest

/-- The relative paths of all files the walk loop iterates at or below a
directory (those that pass the extension filter within the traversed depth). -/
def traversedFilesDir (exts : Option (List String)) (excl : List String) (maxd : Option Nat)
    (relDir : String) (den : Bool) (l : EList) : List String :=
  if den then []
  else if depthStop maxd (curDepth relDir) then []
  else traversedHere exts relDir l ++ traversedChildren exts excl maxd relDir l

/-- The walk output contains a trace of the file at `rel`: its content
header, its too-large skip line, or an error line naming it. -/
def fileRecorded (rel : String) (ls : List String) : Prop :=
  ("## File: " ++ rel) ∈ ls ∨ ("# SKIPPED (TOO LARGE): " ++ rel) ∈ ls ∨
    ∃ x ∈ ls, strStarts x ("# ERROR reading " ++ rel ++ ":") = true

/-- Drop every directory entry (at any depth) whose basename is in `excl`. -/
def removeExcludedE (excl : List String) : EList → EList
  | .nil => .nil
  | .cons (.file n fd) rest => .cons (.file n fd) (removeExcludedE excl rest)
  | .cons (.dir n den s) rest =>
    if n ∈ excl then removeExcludedE excl rest
    else .cons (.dir n den (removeExcludedE excl s)) (removeExcludedE excl rest)

/-- The function `walkChildren` re-expressed over a plain `List` of entries (with the
inlined per-directory body recomposed through `walkDirNode`). -/
def walkChildrenL (exts : Option (List String)) (excl : List String) (maxsz maxd : Option Nat) :
    String → List Entry → Except PyErr (List String × Nat)
  | _, [] => .ok ([], 0)
  | relDir, .file _ _ :: rest => walkChildrenL exts excl maxsz maxd relDir rest
  | relDir, .dir n den s :: rest =>
    if n ∈ excl then walkChildrenL exts excl maxsz maxd relDir rest
    else
      combineEx (walkDirNode exts excl maxsz maxd (joinRel relDir n) den s)
        (walkChildrenL exts excl maxsz maxd relDir rest)

/-- The directory entries of a listing, in enumeration order. -/
def dirEntriesOnly (es : List Entry) : List Entry :=
  es.filter fun e => match e with | .dir _ _ _ => true | .file _ _ => false

/-- The contribution of one entry to the subtree pre-check: the test
`should_include_file` for a file, the recursive walk for a readable
directory (written through `subtreeAnyMatch`, see `subtreeAnyMatch_eq_any`). -/
def entryMatchContrib (exts : Option (List String)) (path : String) : Entry → Bool
  | .file n _ => should_include_file (pjoin path n) exts
  | .dir n den s => !den && subtreeAnyMatch exts (pjoin path n) s

/-- The (name, data) pair of a file entry, `none` for a directory. -/
def fileEntryPair : Entry → Option (String × FileData)
  | .file n fd => some (n, fd)
  | .dir _ _ _ => none

/-- Every sublisting strictly below this one has pairwise-distinct names. -/
def subsNodupE : EList → Bool
  | .nil => true
  | .cons (.file _ _) rest => subsNodupE rest
  | .cons (.dir _ _ s) rest =>
    (decide ((levelNames s).Nodup) && subsNodupE s) && subsNodupE rest

/-- Every directory level of the tree (this listing included) has
pairwise-distinct entry names, as the OS guarantees of a real tree. -/
def treeNodupE (l : EList) : Bool := decide ((levelNames l).Nodup) && subsNodupE l

/-- The list form of `subsNodupE` (see `subsNodupE_eq_L`). -/
def subsNodupL : List Entry → Bool
  | [] => true
  | .file _ _ :: rest => subsNodupL rest
  | .dir _ _ s :: rest => treeNodupE s && subsNodupL rest

mutual
/-- Two entries denote the same state: equal files, or directories with the
same name and denial flag whose recorded listings are re-enumerations of
one another. -/
inductive EntryReEnum : Entry → Entry → Prop where
  | file (n : String) (fd : FileData) : EntryReEnum (.file n fd) (.file n fd)
  | dir (n : String) (den : Bool) {s2 s : EList} :
      ReEnum s2 s → EntryReEnum (.dir n den s2) (.dir n den s)
/-- Positionally matched listings of pairwise re-enumeration-equivalent
entries. -/
inductive PWReEnum : List Entry → List Entry → Prop where
  | nil : PWReEnum [] []
  | cons {e2 e : Entry} {r2 r : List Entry} :
      EntryReEnum e2 e → PWReEnum r2 r → PWReEnum (e2 :: r2) (e :: r)
/-- `l2` is a re-enumeration of the same directory state as `l`: at this
level the entries may appear in any order that keeps the relative order of
the subdirectory entries (`mid` is the intermediate listing: a pointwise
re-enumeration of `l` that `l2` permutes without moving directories), and
every subdirectory's recorded listing is again a re-enumeration, at every
depth. -/
inductive ReEnum : EList → EList → Prop where
  | mk {l2 l : EList} (mid : List Entry) :
      (EList.toList l2).Perm mid →
      dirEntriesOnly (EList.toList l2) = dirEntriesOnly mid →
      PWReEnum mid (EList.toList l) →
      ReEnum l2 l
end

theorem strExt {s t : String} (h : s.data = t.data) : s = t := by
  cases s; cases t; exact congrArg String.mk h

theorem elist_induction (P : EList → Prop) (h0 : P .nil)
    (h1 : ∀ n fd rest, P rest → P (.cons (.file n fd) rest))
    (h2 : ∀ n den s rest, P s → P rest → P (.cons (.dir n den s) rest)) :
    ∀ l, P l
  | .nil => h0
  | .cons (.file n fd) rest => h1 n fd rest (elist_induction P h0 h1 h2 rest)
  | .cons (.dir n den s) rest =>
    h2 n den s rest (elist_induction P h0 h1 h2 s) (elist_induction P h0 h1 h2 rest)

theorem append_ne_of_ne {p q : String} (a b : String) (hlen : p.data.length = q.data.length)
    (hne : p ≠ q) : p ++ a ≠ q ++ b := by
  intro h
  have hd : p.data ++ a.data = q.data ++ b.data := by
    rw [← String.data_append, ← String.data_append, h]
  exact hne (strExt (List.append_inj hd hlen).1)

theorem append_ne_of_take2 {p q : String} (a b : String)
    (h2 : p.data.take 2 ≠ q.data.take 2) (hp : 2 ≤ p.data.length) (hq : 2 ≤ q.data.length) :
    p ++ a ≠ q ++ b := by
  intro h
  have hd : p.data ++ a.data = q.data ++ b.data := by
    rw [← String.data_append, ← String.data_append, h]
  have ht := congrArg (List.take 2) hd
  rw [List.take_append_of_le_length hp, List.take_append_of_le_length hq] at ht
  exact h2 ht

theorem ne_append_of_take2 {x q : String} (a : String)
    (h2 : x.data.take 2 ≠ q.data.take 2) (hq : 2 ≤ q.data.length) : x ≠ q ++ a := by
  intro h
  have hd : x.data = q.data ++ a.data := by rw [← String.data_append, h]
  have ht := congrArg (List.take 2) hd
  rw [List.take_append_of_le_length hq] at ht
  exact h2 ht

theorem append_inj_right {p a b : String} (h : p ++ a = p ++ b) : a = b := by
  have hd : p.data ++ a.data = p.data ++ b.data := by
    rw [← String.data_append, ← String.data_append, h]
  exact strExt (List.append_cancel_left hd)

theorem strStarts_append_self (p a : String) : strStarts (p ++ a) p = true := by
  rw [strStarts, List.isPrefixOf_iff_prefix, String.data_append]
  exact List.prefix_append p.data a.data

theorem slash_append_ne_pd (d : String) : d ++ "/" ≠ "(Permission denied)" := by
  intro h
  have hd := congrArg (fun s => s.data.getLast?) h
  simp only [String.data_append] at hd
  rw [List.getLast?_concat] at hd
  exact absurd hd (by decide)

theorem slash_append_inj {d m : String} (h : d ++ "/" = m ++ "/") : d = m := by
  have hd : d.data ++ ['/'] = m.data ++ ['/'] := by
    have := congrArg String.data h
    simpa only [String.data_append] using this
  exact strExt (List.append_cancel_right hd)

theorem combineEx_eq_ok {a b : Except PyErr (List String × Nat)} {ls : List String} {c : Nat} :
    combineEx a b = .ok (ls, c) ↔
      ∃ l1 c1 l2 c2, a = .ok (l1, c1) ∧ b = .ok (l2, c2) ∧ ls = l1 ++ l2 ∧ c = c1 + c2 := by
  constructor
  · intro h
    match ha : a with
    | .error e => simp [combineEx] at h
    | .ok (l1, c1) =>
      match hb : b with
      | .error e => simp [combineEx] at h
      | .ok (l2, c2) =>
        simp only [combineEx, Except.ok.injEq, Prod.mk.injEq] at h
        exact ⟨l1, c1, l2, c2, rfl, rfl, h.1.symm, h.2.symm⟩
  · rintro ⟨l1, c1, l2, c2, ha, hb, hls, hc⟩
    rw [ha, hb, hls, hc]
    rfl

/-- C1 (counterexample): with `--max-depth 0` on a root containing the single
file `a.py`, the claim says the root-level file is "still read and given a
block in the Source Files section"; in fact the depth check at lines 112-114
does `dirs[:] = []` **and `continue`**, skipping the file loop of the
boundary level as well, so the walk emits nothing (`file_count = 0`) and the
final document contains no block for `a.py` — its Source Files section is
empty while the sketch still lists the file. -/
theorem c1_counterexample :
    walkDirNode none [] none (some 0) "" false
        (.cons (.file "a.py" ⟨.ok ⟨5, "m"⟩, .ok [.valid "print(1)\n"]⟩) .nil) = .ok ([], 0) ∧
    process_files "r" none [] none (some 0) false
        (.cons (.file "a.py" ⟨.ok ⟨5, "m"⟩, .ok [.valid "print(1)\n"]⟩) .nil) =
      .ok "# CodeClip Output - 0 files from r\n\n# Directory Structure (Filtered)\n```\na.py\n```\n\n# Source Files\n" := by
  decide

/-- C1 (amended): in the Document Builder's file-content traversal, a
directory whose depth is greater than or equal to the configured max-depth
contributes nothing at all: its subdirectories are not descended into AND
the files at its own level are neither matched nor emitted (the depth check
`continue`s past the file loop); in particular with max-depth = 0 no file —
including those directly in the root — receives a block. -/
theorem c1_depth_stops_all_processing (exts : Option (List String)) (excl : List String)
    (maxsz : Option Nat) (m : Nat) (relDir : String) (den : Bool) (l : EList)
    (h : m ≤ curDepth relDir) :
    walkDirNode exts excl maxsz (some m) relDir den l = .ok ([], 0) := by
  cases den <;> simp [walkDirNode, depthStop, h]

/-- Witness for C1's amended theorem at max-depth 0 on the root. -/
theorem c1_witness :
    0 ≤ curDepth "" ∧
      walkDirNode none [] none (some 0) "" false
          (.cons (.file "a.py" ⟨.ok ⟨5, "m"⟩, .ok [.valid "print(1)\n"]⟩) .nil) = .ok ([], 0) :=
  ⟨by decide, c1_depth_stops_all_processing none [] none 0 "" false _ (by decide)⟩

/-- C6: for a configured max-size `S` (KB) and a stat-ed size strictly
greater than `S * 1024` bytes, the file's record is exactly the
`# SKIPPED (TOO LARGE)` block with its relative path and human-readable
size, the count contribution is 0, and the result does not depend on the
read outcome `r` at all (the file is never opened); a file of size at most
`S * 1024` is never given the skip block (its record starts with a
`## File:` header or an error line instead). -/
theorem c6_skip_too_large (S : Nat) (rel : String) (st : StatInfo)
    (r : Except PyErr (List Chunk)) :
    (S * 1024 < st.st_size →
      processOneFile (some S) rel ⟨.ok st, r⟩ = .ok (skipLines rel st.st_size, 0)) ∧
    (st.st_size ≤ S * 1024 →
      ∀ ls c, processOneFile (some S) rel ⟨.ok st, r⟩ = .ok (ls, c) →
        ls.head? ≠ some ("# SKIPPED (TOO LARGE): " ++ rel)) := by
  constructor
  · intro h
    simp [processOneFile, sizeTooBig, h]
  · intro h ls c hok
    have hs : sizeTooBig (some S) st.st_size = false := by
      simp only [sizeTooBig, decide_eq_false_iff_not]
      omega
    have hne : ("## File: " ++ rel) ≠ ("# SKIPPED (TOO LARGE): " ++ rel) :=
      append_ne_of_take2 _ _ (by decide) (by decide) (by decide)
    match hr : r with
    | .error e =>
      by_cases hc : catchableErr e = true
      · simp only [processOneFile, hs, Bool.false_eq_true, if_false, hc, if_true] at hok
        have hls : ls = headerLines rel st ++ errLines rel e :=
          (congrArg Prod.fst (Except.ok.inj hok)).symm
        rw [hls]
        exact fun hsome => hne (Option.some.inj (by simpa [headerLines] using hsome))
      · simp only [processOneFile, hs, Bool.false_eq_true, if_false, hc] at hok
        exact absurd hok (by simp)
    | .ok cs =>
      simp only [processOneFile, hs, Bool.false_eq_true, if_false] at hok
      have hls : ls = headerLines rel st ++ [decodeReplace cs, "```", ""] :=
        (congrArg Prod.fst (Except.ok.inj hok)).symm
      rw [hls]
      exact fun hsome => hne (Option.some.inj (by simpa [headerLines] using hsome))

/-- Witness for C6 at a 2000-byte file with max-size 1 KB. -/
theorem c6_witness :
    (1 * 1024 < 2000 ∧
      processOneFile (some 1) "a.py" ⟨.ok ⟨2000, "m"⟩, .ok [.valid "x"]⟩ =
        .ok (skipLines "a.py" 2000, 0)) ∧
    (5 ≤ 1 * 1024 ∧
      ∀ ls c, processOneFile (some 1) "b.py" ⟨.ok ⟨5, "m"⟩, .ok [.valid "x"]⟩ = .ok (ls, c) →
        ls.head? ≠ some ("# SKIPPED (TOO LARGE): " ++ "b.py")) :=
  ⟨⟨by decide, (c6_skip_too_large 1 "a.py" ⟨2000, "m"⟩ (.ok [.valid "x"])).1 (by decide)⟩,
   ⟨by decide, (c6_skip_too_large 1 "b.py" ⟨5, "m"⟩ (.ok [.valid "x"])).2 (by decide)⟩⟩

/-- C7: a file whose bytes fail to decode as UTF-8 never aborts processing:
its read result under `errors='replace'` is the chunk list with the
undecodable runs, the emitted record is an ordinary fenced content block
containing `decodeReplace cs` (each undecodable byte replaced by U+FFFD),
and the count contribution is 1, exactly as for a cleanly decoded file. -/
theorem c7_replace_never_aborts (maxsz : Option Nat) (rel : String) (st : StatInfo)
    (cs : List Chunk) (hsz : sizeTooBig maxsz st.st_size = false)
    (_hbad : hasInvalidChunk cs = true) :
    processOneFile maxsz rel ⟨.ok st, .ok cs⟩ =
      .ok (headerLines rel st ++ [decodeReplace cs, "```", ""], 1) := by
  simp [processOneFile, hsz]

/-- Witness for C7: invalid bytes render as replacement markers and the
file is counted. -/
theorem c7_witness :
    sizeTooBig none 1 = false ∧ hasInvalidChunk [.valid "a", .invalid 2] = true ∧
      processOneFile none "b.txt" ⟨.ok ⟨1, "m"⟩, .ok [.valid "a", .invalid 2]⟩ =
        .ok (headerLines "b.txt" ⟨1, "m"⟩ ++ ["a��", "```", ""], 1) :=
  ⟨by decide, by decide,
    (c7_replace_never_aborts none "b.txt" ⟨1, "m"⟩ [.valid "a", .invalid 2]
      (by decide) (by decide)).trans (by decide)⟩

/-- C8: `format_size` divides repeatedly by 1024, choosing the first unit of
B, KB, MB, GB at which the remaining (exactly represented dyadic) value is
below 1024 and forcing GB otherwise, and renders that value with exactly two
decimal places, a blank and the unit; in particular a 614400-byte (600 KB)
file renders as `600.00 KB`. -/
theorem c8_format_size :
    (∀ n : Nat, format_size n =
      twoDecRender n (10 * sizeUnitIdx n) ++ " " ++ sizeUnitName (sizeUnitIdx n)) ∧
    format_size 614400 = "600.00 KB" := by
  constructor
  · intro n
    unfold format_size sizeUnitIdx
    simp only [formatSizeLoop]
    by_cases h1 : n < 1024
    · simp [h1, sizeUnitName]
    · by_cases h2 : n < 1048576
      · simp [h1, h2, sizeUnitName]
      · by_cases h3 : n < 1073741824
        · simp [h1, h2, h3, sizeUnitName]
        · simp [h1, h2, h3, sizeUnitName]
  · decide

theorem sketchItems_eq_map (exts : Option (List String)) (excl : List String)
    (maxd : Option Nat) (path : String) (cd : Nat) (l : EList) :
    sketchItems exts excl maxd path cd l =
      (EList.toList l).map (sketchItemOf exts excl maxd path cd) := by
  refine elist_induction
    (fun l => sketchItems exts excl maxd path cd l =
      (EList.toList l).map (sketchItemOf exts excl maxd path cd)) rfl ?_ ?_ l
  · intro n fd rest ih
    simp [sketchItems, EList.toList, sketchItemOf, ih]
  · intro n den s rest _ ih
    simp only [sketchItems, EList.toList, List.map_cons, ih, List.cons.injEq, and_true]
    rfl

theorem walkChildren_eq_L (exts : Option (List String)) (excl : List String)
    (maxsz maxd : Option Nat) (l : EList) :
    ∀ relDir, walkChildren exts excl maxsz maxd relDir l =
      walkChildrenL exts excl maxsz maxd relDir (EList.toList l) := by
  refine elist_induction
    (fun l => ∀ relDir, walkChildren exts excl maxsz maxd relDir l =
      walkChildrenL exts excl maxsz maxd relDir (EList.toList l)) (fun _ => rfl) ?_ ?_ l
  · intro n fd rest ih relDir
    simpa [walkChildren, EList.toList, walkChildrenL] using ih relDir
  · intro n den s rest _ ih relDir
    simp only [walkChildren, EList.toList, walkChildrenL, ih relDir]
    rfl

theorem should_include_file_some_nil (p : String) : should_include_file p (some []) = false := rfl

theorem subtreeAnyMatch_some_nil (l : EList) :
    ∀ path, subtreeAnyMatch (some []) path l = false := by
  refine elist_induction (fun l => ∀ path, subtreeAnyMatch (some []) path l = false)
    (fun _ => rfl) ?_ ?_ l
  · intro n fd rest ih path
    simp [subtreeAnyMatch, should_include_file, ih path]
  · intro n den s rest ihs ih path
    simp [subtreeAnyMatch, ihs (pjoin path n), ih path]

theorem sketchItems_some_nil_snd (excl : List String) (maxd : Option Nat) (l : EList) :
    ∀ path cd, ∀ p ∈ sketchItems (some []) excl maxd path cd l, p.2 = [] := by
  refine elist_induction
    (fun l => ∀ path cd, ∀ p ∈ sketchItems (some []) excl maxd path cd l, p.2 = []) ?_ ?_ ?_ l
  · intro path cd p hp
    simp [sketchItems] at hp
  · intro n fd rest ih path cd p hp
    simp only [sketchItems, should_include_file_some_nil, Bool.false_eq_true, if_false,
      List.mem_cons] at hp
    rcases hp with h | h
    · rw [h]
    · exact ih path cd p h
  · intro n den s rest _ ih path cd p hp
    simp only [sketchItems, List.mem_cons] at hp
    rcases hp with h | h
    · rw [h]
      simp [subtreeHasMatch, subtreeAnyMatch_some_nil]
    · exact ih path cd p h

/-- C10: invoked directly with an empty (non-`None`) extension list, the two
traversals disagree.  (a) The structure sketch treats `[]` as an active
filter matching nothing (`should_include_file` is `any` over an empty list
and line 68 tests `extensions is None`), so no file line and no directory
line is produced at any level: the per-level line list is empty.  (b) The
Source Files walk treats `[]` as falsy at line 118 (`if extensions and ...`),
i.e. as no filter at all: its output is identical to running with
`extensions = None`, emitting a block for every traversed file. -/
theorem c10_empty_filter_divergence :
    (∀ (excl : List String) (maxd : Option Nat) (path : String) (cd : Nat) (l : EList),
      sketchLevelLines (some []) excl maxd path cd false l = []) ∧
    (∀ (excl : List String) (maxsz maxd : Option Nat) (relDir : String) (den : Bool)
      (l : EList),
      walkDirNode (some []) excl maxsz maxd relDir den l =
        walkDirNode none excl maxsz maxd relDir den l) := by
  constructor
  · intro excl maxd path cd l
    simp only [sketchLevelLines, Bool.false_eq_true, if_false, flattenPairs]
    rw [List.flatten_eq_nil_iff]
    intro x hx
    rcases List.mem_map.mp hx with ⟨p, hp, hpx⟩
    have hp' : p ∈ sketchItems (some []) excl maxd path cd l :=
      (List.perm_insertionSort _ _).mem_iff.mp hp
    rw [← hpx]
    exact sketchItems_some_nil_snd excl maxd l path cd p hp'
  · intro excl maxsz maxd relDir den l
    have hfiles : ∀ (rd : String) (fps : List (String × FileData)),
        walkFilesAcc (some []) maxsz rd fps = walkFilesAcc none maxsz rd fps := by
      intro rd fps
      induction fps with
      | nil => rfl
      | cons p rest ih =>
        obtain ⟨n, fd⟩ := p
        simp [walkFilesAcc, walkFileFilter, ih]
    have hch : ∀ (l : EList) (rd : String),
        walkChildren (some []) excl maxsz maxd rd l =
          walkChildren none excl maxsz maxd rd l := by
      intro l
      refine elist_induction
        (fun l => ∀ rd, walkChildren (some []) excl maxsz maxd rd l =
          walkChildren none excl maxsz maxd rd l) (fun _ => rfl) ?_ ?_ l
      · intro n fd rest ih rd
        simpa [walkChildren] using ih rd
      · intro n den' s rest ihs ih rd
        simp only [walkChildren, ih rd, hfiles, ihs]
    simp only [walkDirNode, hfiles, hch]

theorem strHasChar_append_slash (d : String) : strHasChar (d ++ "/") '/' = true := by
  simp [strHasChar, String.data_append]

theorem goodName_ne_indent {d : String} (hg : goodName d = true) (s : String) :
    d ++ "/" ≠ indentBlock s := by
  intro h
  have hd : d.data ++ ['/'] = (' ' :: ' ' :: (String.intercalate "\n  " (strSplitNl s)).data) := by
    have := congrArg String.data h
    simpa [String.data_append, indentBlock] using this
  match hdata : d.data with
  | [] => rw [hdata] at hd; exact absurd (List.head_eq_of_cons_eq hd) (by decide)
  | c :: cs =>
    rw [hdata] at hd
    have hc : c = ' ' := by
      have := List.head_eq_of_cons_eq hd
      simpa using this
    have : strStarts d " " = true := by
      rw [strStarts, hdata, hc, List.isPrefixOf_iff_prefix]
      exact List.cons_prefix_cons.mpr ⟨rfl, List.nil_prefix⟩
    rw [goodName, Bool.and_eq_true] at hg
    rw [this] at hg
    simp at hg

theorem mem_sketchItemOf_payload {exts : Option (List String)} {excl : List String}
    {maxd : Option Nat} {path : String} {cd : Nat} {e : Entry} {x : String}
    (hx : x ∈ (sketchItemOf exts excl maxd path cd e).2) :
    (∃ n fd, e = .file n fd ∧ x = n ∧ should_include_file (pjoin path n) exts = true) ∨
    (∃ m den2 s2, e = .dir m den2 s2 ∧ ¬(excl ≠ [] ∧ m ∈ excl) ∧
      (subtreeHasMatch exts (pjoin path m) den2 s2 || exts.isNone) = true ∧
      (x = m ++ "/" ∨ ∃ str, x = indentBlock str)) := by
  match e with
  | .file n fd =>
    left
    refine ⟨n, fd, rfl, ?_⟩
    by_cases hinc : should_include_file (pjoin path n) exts = true
    · simp only [sketchItemOf, hinc, if_true, List.mem_singleton] at hx
      exact ⟨hx, hinc⟩
    · simp [sketchItemOf, hinc] at hx
  | .dir m den2 s2 =>
    right
    refine ⟨m, den2, s2, rfl, ?_⟩
    by_cases hexc : excl ≠ [] ∧ m ∈ excl
    · simp [sketchItemOf, hexc] at hx
    · by_cases hcond : (subtreeHasMatch exts (pjoin path m) den2 s2 || exts.isNone) = true
      · refine ⟨hexc, hcond, ?_⟩
        simp only [sketchItemOf, hexc, if_false, hcond, if_true, List.mem_cons] at hx
        rcases hx with h | h
        · exact Or.inl h
        · right
          rcases hrec : recurseOK maxd cd with _ | _
          · rw [hrec] at h; simp at h
          · rw [hrec] at h
            simp only [if_true] at h
            set str := get_filtered_directory_structure exts excl maxd (pjoin path m)
              (cd + 1) den2 s2 with hstr
            by_cases hne : str = ""
            · rw [if_pos hne] at h; simp at h
            · rw [if_neg hne] at h
              simp only [List.mem_singleton] at h
              exact ⟨str, h⟩
      · simp [sketchItemOf, hexc, hcond] at hx

theorem mem_sketchLevelLines_iff {exts : Option (List String)} {excl : List String}
    {maxd : Option Nat} {path : String} {cd : Nat} {l : EList} {x : String} :
    x ∈ sketchLevelLines exts excl maxd path cd false l ↔
      ∃ e ∈ EList.toList l, x ∈ (sketchItemOf exts excl maxd path cd e).2 := by
  simp only [sketchLevelLines, Bool.false_eq_true, if_false, flattenPairs, List.mem_flatten,
    List.mem_map]
  constructor
  · rintro ⟨ys, ⟨p, hp, hys⟩, hx⟩
    have hp' : p ∈ sketchItems exts excl maxd path cd l :=
      (List.perm_insertionSort _ _).mem_iff.mp hp
    rw [sketchItems_eq_map] at hp'
    rcases List.mem_map.mp hp' with ⟨e, he, hpe⟩
    exact ⟨e, he, by rw [hpe, hys]; exact hx⟩
  · rintro ⟨e, he, hx⟩
    refine ⟨(sketchItemOf exts excl maxd path cd e).2,
      ⟨sketchItemOf exts excl maxd path cd e, ?_, rfl⟩, hx⟩
    apply (List.perm_insertionSort _ _).mem_iff.mpr
    rw [sketchItems_eq_map]
    exact List.mem_map.mpr ⟨e, he, rfl⟩

theorem filePairs_removeExcluded (excl : List String) (l : EList) :
    filePairs (removeExcludedE excl l) = filePairs l := by
  refine elist_induction (fun l => filePairs (removeExcludedE excl l) = filePairs l)
    rfl ?_ ?_ l
  · intro n fd rest ih
    simp [removeExcludedE, filePairs, ih]
  · intro n den s rest _ ih
    by_cases h : n ∈ excl <;> simp [removeExcludedE, filePairs, h, ih]

theorem walkChildren_removeExcluded (exts : Option (List String)) (excl : List String)
    (maxsz maxd : Option Nat) (l : EList) :
    ∀ relDir, walkChildren exts excl maxsz maxd relDir (removeExcludedE excl l) =
      walkChildren exts excl maxsz maxd relDir l := by
  refine elist_induction
    (fun l => ∀ relDir, walkChildren exts excl maxsz maxd relDir (removeExcludedE excl l) =
      walkChildren exts excl maxsz maxd relDir l) (fun _ => rfl) ?_ ?_ l
  · intro n fd rest ih relDir
    simpa [removeExcludedE, walkChildren] using ih relDir
  · intro n den s rest ihs ih relDir
    by_cases h : n ∈ excl
    · simp [removeExcludedE, walkChildren, h, ih relDir]
    · simp only [removeExcludedE, if_neg h, walkChildren, ih relDir,
        filePairs_removeExcluded, ihs]

/-- C5 (counterexample): with exclusion set `E = {"x"}` and no extension
filter, a **file** named `x` in the root is not excluded (line 49 tests
`os.path.isdir` first), so the line `x` — a path component equal to a name
in `E` — appears in the structure sketch, contradicting the claim that no
such line appears. -/
theorem c5_counterexample :
    "x" ∈ sketchLevelLines none ["x"] none "r" 0 false
        (.cons (.file "x" ⟨.ok ⟨1, "m"⟩, .ok []⟩) .nil) ∧
    get_filtered_directory_structure none ["x"] none "r" 0 false
        (.cons (.file "x" ⟨.ok ⟨1, "m"⟩, .ok []⟩) .nil) = "x" := by
  constructor
  · decide
  · decide

/-- C5 (amended): exclusion by exact basename equality applies to
**directories** only.  (a) No *directory* line `<name>/` with a name in `E`
appears at any level of the structure sketch (a file sharing an excluded
name is still listed, as the counterexample shows); here the excluded name
is a well-formed basename and the listing's names are well formed.  (b) The
Source Files walk never descends into a directory whose basename is in `E`:
its output on any tree equals its output on the tree with every such
subtree (at any depth below the root) removed, so no file beneath an
excluded directory receives any block. -/
theorem c5_exclusion :
    (∀ (exts : Option (List String)) (excl : List String) (maxd : Option Nat)
      (path : String) (cd : Nat) (den : Bool) (l : EList) (d : String),
      levelWF l → d ∈ excl → goodName d = true →
      (d ++ "/") ∉ sketchLevelLines exts excl maxd path cd den l) ∧
    (∀ (exts : Option (List String)) (excl : List String) (maxsz maxd : Option Nat)
      (relDir : String) (den : Bool) (l : EList),
      walkDirNode exts excl maxsz maxd relDir den l =
        walkDirNode exts excl maxsz maxd relDir den (removeExcludedE excl l)) := by
  constructor
  · intro exts excl maxd path cd den l d hwf hdx hgood hmem
    match den with
    | true =>
      simp only [sketchLevelLines, if_true, List.mem_singleton] at hmem
      exact slash_append_ne_pd d hmem
    | false =>
      rcases mem_sketchLevelLines_iff.mp hmem with ⟨e, he, hx⟩
      rcases mem_sketchItemOf_payload hx with
        ⟨n, fd, hef, hxn, _⟩ | ⟨m, den2, s2, hed, hnex, _, hform⟩
      · have hn : goodName n = true := by
          refine hwf.2 n ?_
          simp only [levelNames, List.mem_map]
          exact ⟨e, he, by rw [hef]; rfl⟩
        rw [goodName, Bool.and_eq_true] at hn
        have : strHasChar n '/' = true := by rw [← hxn]; exact strHasChar_append_slash d
        rw [this] at hn
        simp at hn
      · rcases hform with hline | ⟨str, hblob⟩
        · have hdm : d = m := slash_append_inj hline
          apply hnex
          refine ⟨?_, by rw [← hdm]; exact hdx⟩
          intro hnil
          rw [hnil] at hdx
          exact absurd hdx (List.not_mem_nil d)
        · exact goodName_ne_indent hgood str hblob
  · intro exts excl maxsz maxd relDir den l
    simp only [walkDirNode, filePairs_removeExcluded, walkChildren_removeExcluded]

/-- Witness for C5 on a tree with an excluded directory next to a kept file. -/
theorem c5_witness :
    (levelWF (.cons (.dir "node_modules" false (.cons (.file "c.py" ⟨.ok ⟨1, "m"⟩, .ok []⟩) .nil))
        (.cons (.file "a.py" ⟨.ok ⟨1, "m"⟩, .ok []⟩) .nil)) ∧
      "node_modules" ∈ ["node_modules"] ∧ goodName "node_modules" = true) ∧
    ("node_modules" ++ "/") ∉ sketchLevelLines (some ["py"]) ["node_modules"] none "r" 0 false
      (.cons (.dir "node_modules" false (.cons (.file "c.py" ⟨.ok ⟨1, "m"⟩, .ok []⟩) .nil))
        (.cons (.file "a.py" ⟨.ok ⟨1, "m"⟩, .ok []⟩) .nil)) :=
  ⟨⟨by decide, by decide, by decide⟩,
    c5_exclusion.1 (some ["py"]) ["node_modules"] none "r" 0 false _ "node_modules"
      (by decide) (by decide) (by decide)⟩

/-- C2 (counterexample): root contains `a/` whose only file `a/x/f.py` lies
beneath the excluded subdirectory `x`, with filter `["py"]`.  The subtree
pre-check of lines 56-66 walks the *whole* subtree (its exclusion loop is a
no-op), so `a/` does appear in the sketch, although `a`'s subtree contains
no matching file once excluded subdirectories are taken into account
(`removeExcludedE`) and a filter is active — the claimed iff is false here
(the claim says `a/` must not appear). -/
theorem c2_counterexample :
    ("a" ++ "/") ∈ sketchLevelLines (some ["py"]) ["x"] none "r" 0 false
        (.cons (.dir "a" false (.cons (.dir "x" false
          (.cons (.file "f.py" ⟨.ok ⟨1, "m"⟩, .ok []⟩) .nil)) .nil)) .nil) ∧
    subtreeHasMatch (some ["py"]) (pjoin "r" "a") false
        (removeExcludedE ["x"] (.cons (.dir "x" false
          (.cons (.file "f.py" ⟨.ok ⟨1, "m"⟩, .ok []⟩) .nil)) .nil)) = false ∧
    (some ["py"] : Option (List String)) ≠ none := by
  refine ⟨by decide, by decide, by decide⟩

/-- C2 (amended): for a well-formed listing, a directory entry's line
`<name>/` appears in the sketch at its level **iff** the directory is not
excluded by name and either its **entire** subtree — excluded
subdirectories included and the depth limit ignored, denied sublistings
contributing nothing — contains at least one file passing the extension
filter, or no extension filter is configured (`extensions is None`); the
pre-check does *not* respect the exclusion set or the depth limit. -/
theorem c2_sketch_dir_iff (exts : Option (List String)) (excl : List String)
    (maxd : Option Nat) (path : String) (cd : Nat) (l : EList) (d : String)
    (dden : Bool) (s : EList)
    (hwf : levelWF l) (hmem : Entry.dir d dden s ∈ EList.toList l) :
    ((d ++ "/") ∈ sketchLevelLines exts excl maxd path cd false l) ↔
      (d ∉ excl ∧ (subtreeHasMatch exts (pjoin path d) dden s || exts.isNone) = true) := by
  have hgood : goodName d = true := by
    refine hwf.2 d ?_
    simp only [levelNames, List.mem_map]
    exact ⟨Entry.dir d dden s, hmem, rfl⟩
  constructor
  · intro hin
    rcases mem_sketchLevelLines_iff.mp hin with ⟨e, he, hx⟩
    rcases mem_sketchItemOf_payload hx with
      ⟨n, fd, hef, hxn, _⟩ | ⟨m, den2, s2, hed, hnex, hcond, hform⟩
    · exfalso
      have hn : goodName n = true := by
        refine hwf.2 n ?_
        simp only [levelNames, List.mem_map]
        exact ⟨e, he, by rw [hef]; rfl⟩
      rw [goodName, Bool.and_eq_true] at hn
      have : strHasChar n '/' = true := by rw [← hxn]; exact strHasChar_append_slash d
      rw [this] at hn
      simp at hn
    · rcases hform with hline | ⟨str, hblob⟩
      · have hdm : d = m := slash_append_inj hline
        subst hdm
        have heq : Entry.dir d dden s = e := by
          apply List.inj_on_of_nodup_map hwf.1 hmem (by rw [hed] at he ⊢; exact he)
          rw [hed]
          rfl
        rw [hed] at heq
        obtain ⟨-, hden, hsub⟩ := Entry.dir.inj heq
        constructor
        · intro hdx
          exact hnex ⟨fun hnil => by rw [hnil] at hdx; exact absurd hdx (List.not_mem_nil d),
            hdx⟩
        · rw [hden, hsub]
          exact hcond
      · exact absurd hblob (goodName_ne_indent hgood str)
  · rintro ⟨hnx, hcond⟩
    apply mem_sketchLevelLines_iff.mpr
    refine ⟨Entry.dir d dden s, hmem, ?_⟩
    have hnex : ¬(excl ≠ [] ∧ d ∈ excl) := fun h => hnx h.2
    simp [sketchItemOf, hnex, hcond]

/-- Witness for C2's amended iff on a concrete listing. -/
theorem c2_witness :
    (levelWF (.cons (.dir "a" false (.cons (.file "f.py" ⟨.ok ⟨1, "m"⟩, .ok []⟩) .nil)) .nil) ∧
      Entry.dir "a" false (.cons (.file "f.py" ⟨.ok ⟨1, "m"⟩, .ok []⟩) .nil) ∈
        EList.toList (.cons (.dir "a" false
          (.cons (.file "f.py" ⟨.ok ⟨1, "m"⟩, .ok []⟩) .nil)) .nil)) ∧
    ("a" ++ "/") ∈ sketchLevelLines (some ["py"]) ["x"] none "r" 0 false
      (.cons (.dir "a" false (.cons (.file "f.py" ⟨.ok ⟨1, "m"⟩, .ok []⟩) .nil)) .nil) :=
  ⟨⟨by decide, by decide⟩,
    (c2_sketch_dir_iff (some ["py"]) ["x"] none "r" 0
      (.cons (.dir "a" false (.cons (.file "f.py" ⟨.ok ⟨1, "m"⟩, .ok []⟩) .nil)) .nil) "a" false
      (.cons (.file "f.py" ⟨.ok ⟨1, "m"⟩, .ok []⟩) .nil)
      (by decide) (by decide)).mpr (by decide)⟩

theorem strStarts_err (q m : String) : strStarts (q ++ ": " ++ m) (q ++ ":") = true := by
  rw [strStarts, List.isPrefixOf_iff_prefix]
  refine ⟨' ' :: m.data, ?_⟩
  simp only [String.data_append, List.append_assoc]
  rfl

theorem fileRecorded_append_left {rel : String} {ls1 ls2 : List String}
    (h : fileRecorded rel ls1) : fileRecorded rel (ls1 ++ ls2) := by
  rcases h with h | h | ⟨x, hx, hs⟩
  · exact Or.inl (List.mem_append_left ls2 h)
  · exact Or.inr (Or.inl (List.mem_append_left ls2 h))
  · exact Or.inr (Or.inr ⟨x, List.mem_append_left ls2 hx, hs⟩)

theorem fileRecorded_append_right {rel : String} {ls1 ls2 : List String}
    (h : fileRecorded rel ls2) : fileRecorded rel (ls1 ++ ls2) := by
  rcases h with h | h | ⟨x, hx, hs⟩
  · exact Or.inl (List.mem_append_right ls1 h)
  · exact Or.inr (Or.inl (List.mem_append_right ls1 h))
  · exact Or.inr (Or.inr ⟨x, List.mem_append_right ls1 hx, hs⟩)

theorem processOneFile_record (maxsz : Option Nat) (rel : String) (fd : FileData)
    (h1 : okOrCatchable fd.statRes = true) (h2 : okOrCatchable fd.readRes = true) :
    ∃ ls c, processOneFile maxsz rel fd = .ok (ls, c) ∧ fileRecorded rel ls := by
  match hst : fd.statRes with
  | .error e =>
    rw [hst] at h1
    have h1' : catchableErr e = true := h1
    refine ⟨errLines rel e, 0, by simp [processOneFile, hst, h1'], ?_⟩
    refine Or.inr (Or.inr ⟨"# ERROR reading " ++ rel ++ ": " ++ e.msg, ?_, ?_⟩)
    · simp [errLines]
    · have := strStarts_err ("# ERROR reading " ++ rel) e.msg
      simpa [String.append_assoc] using this
  | .ok st =>
    by_cases hsz : sizeTooBig maxsz st.st_size = true
    · refine ⟨skipLines rel st.st_size, 0, by simp [processOneFile, hst, hsz], ?_⟩
      exact Or.inr (Or.inl (by simp [skipLines]))
    · rw [Bool.not_eq_true] at hsz
      match hrd : fd.readRes with
      | .error e =>
        rw [hrd] at h2
        have h2' : catchableErr e = true := h2
        refine ⟨headerLines rel st ++ errLines rel e, 0,
          by simp [processOneFile, hst, hsz, hrd, h2'], ?_⟩
        exact Or.inl (by simp [headerLines])
      | .ok cs =>
        refine ⟨headerLines rel st ++ [decodeReplace cs, "```", ""], 1,
          by simp [processOneFile, hst, hsz, hrd], ?_⟩
        exact Or.inl (by simp [headerLines])

theorem mem_traversedHere {exts : Option (List String)} {relDir rel : String} {l : EList} :
    rel ∈ traversedHere exts relDir l ↔
      ∃ p ∈ sortPairs (filePairs l), walkFileFilter exts p.1 = true ∧
        rel = joinRel relDir p.1 := by
  simp only [traversedHere, List.mem_map, List.mem_filter]
  constructor
  · rintro ⟨p, ⟨hp, hf⟩, hr⟩
    exact ⟨p, hp, hf, hr.symm⟩
  · rintro ⟨p, hp, hf, hr⟩
    exact ⟨p, ⟨hp, hf⟩, hr.symm⟩

theorem walkFilesAcc_record (exts : Option (List String)) (maxsz : Option Nat)
    (relDir : String) (fps : List (String × FileData))
    (hcat : ∀ p ∈ fps, okOrCatchable p.2.statRes = true ∧ okOrCatchable p.2.readRes = true) :
    ∃ ls c, walkFilesAcc exts maxsz relDir fps = .ok (ls, c) ∧
      ∀ p ∈ fps, walkFileFilter exts p.1 = true → fileRecorded (joinRel relDir p.1) ls := by
  induction fps with
  | nil => exact ⟨[], 0, rfl, by simp⟩
  | cons q rest ih =>
    obtain ⟨n, fd⟩ := q
    obtain ⟨ls2, c2, hok2, hrec2⟩ := ih fun p hp => hcat p (List.mem_cons_of_mem _ hp)
    by_cases hf : walkFileFilter exts n = true
    · obtain ⟨ls1, c1, hok1, hrec1⟩ :=
        processOneFile_record maxsz (joinRel relDir n) fd
          (hcat (n, fd) (List.mem_cons_self _ _)).1 (hcat (n, fd) (List.mem_cons_self _ _)).2
      refine ⟨ls1 ++ ls2, c1 + c2, ?_, ?_⟩
      · simp [walkFilesAcc, hf, hok1, hok2, combineEx]
      · intro p hp hpf
        rcases List.mem_cons.mp hp with hph | hpt
        · rw [hph]
          exact fileRecorded_append_left hrec1
        · exact fileRecorded_append_right (hrec2 p hpt hpf)
    · refine ⟨ls2, c2, by simp [walkFilesAcc, hf, hok2], ?_⟩
      intro p hp hpf
      rcases List.mem_cons.mp hp with hph | hpt
      · rw [hph] at hpf; exact absurd hpf hf
      · exact hrec2 p hpt hpf

theorem allCatchableE_filePairs {l : EList} (h : allCatchableE l = true) :
    ∀ p ∈ filePairs l, okOrCatchable p.2.statRes = true ∧ okOrCatchable p.2.readRes = true := by
  refine elist_induction
    (fun l => allCatchableE l = true →
      ∀ p ∈ filePairs l, okOrCatchable p.2.statRes = true ∧ okOrCatchable p.2.readRes = true)
    ?_ ?_ ?_ l h
  · intro _ p hp
    simp [filePairs] at hp
  · intro n fd rest ih hc p hp
    rw [allCatchableE, Bool.and_eq_true, Bool.and_eq_true] at hc
    rcases List.mem_cons.mp hp with hph | hpt
    · rw [hph]
      exact ⟨hc.1.1, hc.1.2⟩
    · exact ih hc.2 p hpt
  · intro n den s rest _ ih hc p hp
    rw [allCatchableE, Bool.and_eq_true] at hc
    exact ih hc.2 p hp

theorem walkChildren_record (exts : Option (List String)) (excl : List String)
    (maxsz maxd : Option Nat) (l : EList) :
    ∀ relDir, allCatchableE l = true →
      ∃ ls c, walkChildren exts excl maxsz maxd relDir l = .ok (ls, c) ∧
        ∀ rel ∈ traversedChildren exts excl maxd relDir l, fileRecorded rel ls := by
  refine elist_induction
    (fun l => ∀ relDir, allCatchableE l = true →
      ∃ ls c, walkChildren exts excl maxsz maxd relDir l = .ok (ls, c) ∧
        ∀ rel ∈ traversedChildren exts excl maxd relDir l, fileRecorded rel ls) ?_ ?_ ?_ l
  · intro relDir _
    exact ⟨[], 0, rfl, by simp [traversedChildren]⟩
  · intro n fd rest ih relDir hc
    rw [allCatchableE, Bool.and_eq_true, Bool.and_eq_true] at hc
    obtain ⟨ls, c, hok, hrec⟩ := ih relDir hc.2
    exact ⟨ls, c, by simpa [walkChildren] using hok, by simpa [traversedChildren] using hrec⟩
  · intro n den s rest ihs ih relDir hc
    rw [allCatchableE, Bool.and_eq_true] at hc
    obtain ⟨ls2, c2, hok2, hrec2⟩ := ih relDir hc.2
    by_cases hx : n ∈ excl
    · refine ⟨ls2, c2, by simp [walkChildren, hx, hok2], ?_⟩
      simpa [traversedChildren, hx] using hrec2
    · by_cases hden : den = true
      · refine ⟨ls2, c2, ?_, ?_⟩
        · simp [walkChildren, hx, hden, combineEx, hok2]
        · intro rel hrel
          rw [traversedChildren] at hrel
          rw [if_neg hx] at hrel
          simp only [hden, if_true, List.nil_append] at hrel
          exact hrec2 rel hrel
      · rw [Bool.not_eq_true] at hden
        by_cases hstop : depthStop maxd (curDepth (joinRel relDir n)) = true
        · refine ⟨ls2, c2, ?_, ?_⟩
          · simp [walkChildren, hx, hden, hstop, combineEx, hok2]
          · intro rel hrel
            rw [traversedChildren] at hrel
            rw [if_neg hx] at hrel
            simp only [hden, Bool.false_eq_true, if_false, hstop, if_true,
              List.nil_append] at hrel
            exact hrec2 rel hrel
        · rw [Bool.not_eq_true] at hstop
          obtain ⟨lsf, cf, hokf, hrecf⟩ :=
            walkFilesAcc_record exts maxsz (joinRel relDir n) (sortPairs (filePairs s))
              (fun p hp => allCatchableE_filePairs hc.1 p
                ((List.perm_insertionSort _ _).mem_iff.mp hp))
          obtain ⟨lss, cs, hoks, hrecs⟩ := ihs (joinRel relDir n) hc.1
          refine ⟨(lsf ++ lss) ++ ls2, (cf + cs) + c2, ?_, ?_⟩
          · simp [walkChildren, hx, hden, hstop, combineEx, hokf, hoks, hok2]
          · intro rel hrel
            rw [traversedChildren] at hrel
            rw [if_neg hx] at hrel
            simp only [hden, Bool.false_eq_true, if_false, hstop, List.mem_append] at hrel
            rcases hrel with (hh | hs') | hr
            · rcases mem_traversedHere.mp hh with ⟨p, hp, hpf, hprel⟩
              rw [hprel]
              exact fileRecorded_append_left (fileRecorded_append_left (hrecf p hp hpf))
            · exact fileRecorded_append_left (fileRecorded_append_right (hrecs rel hs'))
            · exact fileRecorded_append_right (hrec2 rel hr)

/-- C3 (counterexample): a single root file whose `os.stat` raises
`FileNotFoundError` (e.g. a broken symlink).  That class is not among the
caught ones (line 152 catches only PermissionError, UnicodeDecodeError,
IsADirectoryError), so no error block is recorded: the exception propagates
out of `process_files` and the whole build aborts with no output document at
all, contradicting "when stat-ing or reading a file fails for any reason, an
error block is recorded and the traversal continues". -/
theorem c3_counterexample :
    process_files "r" none [] none none false
        (.cons (.file "f.py" ⟨.error ⟨.fileNotFoundError, "No such file or directory"⟩,
          .ok []⟩) .nil) =
      .error ⟨.fileNotFoundError, "No such file or directory"⟩ := by
  decide

/-- C3 (amended): when every stat/read failure in the tree is of a *caught*
class (PermissionError, UnicodeDecodeError, IsADirectoryError), the walk
completes and every file that passes the extension filter within the
traversed depth (`traversedFilesDir`) leaves a trace in the output — a
`## File:` content header, a `# SKIPPED (TOO LARGE)` line, or a
`# ERROR reading <relpath>:` line — and the traversal continues past each
such failure; an uncaught class (e.g. FileNotFoundError) instead aborts the
whole build, as the counterexample shows. -/
theorem c3_catchable_recorded (exts : Option (List String)) (excl : List String)
    (maxsz maxd : Option Nat) (relDir : String) (den : Bool) (l : EList)
    (hcat : allCatchableE l = true) :
    ∃ ls c, walkDirNode exts excl maxsz maxd relDir den l = .ok (ls, c) ∧
      ∀ rel ∈ traversedFilesDir exts excl maxd relDir den l, fileRecorded rel ls := by
  by_cases hden : den = true
  · exact ⟨[], 0, by simp [walkDirNode, hden], by simp [traversedFilesDir, hden]⟩
  · rw [Bool.not_eq_true] at hden
    by_cases hstop : depthStop maxd (curDepth relDir) = true
    · exact ⟨[], 0, by simp [walkDirNode, hden, hstop],
        by simp [traversedFilesDir, hden, hstop]⟩
    · rw [Bool.not_eq_true] at hstop
      obtain ⟨lsf, cf, hokf, hrecf⟩ :=
        walkFilesAcc_record exts maxsz relDir (sortPairs (filePairs l))
          (fun p hp => allCatchableE_filePairs hcat p
            ((List.perm_insertionSort _ _).mem_iff.mp hp))
      obtain ⟨lsc, cc, hokc, hrecc⟩ := walkChildren_record exts excl maxsz maxd l relDir hcat
      refine ⟨lsf ++ lsc, cf + cc, ?_, ?_⟩
      · simp [walkDirNode, hden, hstop, combineEx, hokf, hokc]
      · intro rel hrel
        simp only [traversedFilesDir, hden, Bool.false_eq_true, if_false, hstop,
          List.mem_append] at hrel
        rcases hrel with hh | hc
        · rcases mem_traversedHere.mp hh with ⟨p, hp, hpf, hprel⟩
          rw [hprel]
          exact fileRecorded_append_left (hrecf p hp hpf)
        · exact fileRecorded_append_right (hrecc rel hc)

/-- Witness for C3's amended theorem on a tree whose only failure is a
caught PermissionError. -/
theorem c3_witness :
    allCatchableE (.cons (.file "p.py" ⟨.error ⟨.permissionError, "denied"⟩, .ok []⟩) .nil)
        = true ∧
    (∃ ls c, walkDirNode none [] none none "" false
        (.cons (.file "p.py" ⟨.error ⟨.permissionError, "denied"⟩, .ok []⟩) .nil) = .ok (ls, c) ∧
      ∀ rel ∈ traversedFilesDir none [] none "" false
          (.cons (.file "p.py" ⟨.error ⟨.permissionError, "denied"⟩, .ok []⟩) .nil),
        fileRecorded rel ls) :=
  ⟨by decide,
    c3_catchable_recorded none [] none none "" false
      (.cons (.file "p.py" ⟨.error ⟨.permissionError, "denied"⟩, .ok []⟩) .nil) (by decide)⟩

theorem append_ne_of_takek {p q : String} (k : Nat) (a b : String)
    (hne : p.data.take k ≠ q.data.take k) (hp : k ≤ p.data.length) (hq : k ≤ q.data.length) :
    p ++ a ≠ q ++ b := by
  intro h
  have hd : p.data ++ a.data = q.data ++ b.data := by
    rw [← String.data_append, ← String.data_append, h]
  have ht := congrArg (List.take k) hd
  rw [List.take_append_of_le_length hp, List.take_append_of_le_length hq] at ht
  exact hne ht

theorem append3_reassoc (a b c d : String) : ((a ++ b) ++ c) ++ d = a ++ ((b ++ c) ++ d) := by
  apply strExt
  simp [String.data_append, List.append_assoc]

theorem hdr_ne_empty (rel : String) : "## File: " ++ rel ≠ "" := by
  intro h
  have hd := congrArg String.data h
  rw [String.data_append] at hd
  exact absurd (List.append_eq_nil.mp hd).1 (by decide)

theorem processOneFile_header_mem {maxsz : Option Nat} {r : String} {fd : FileData}
    {ls : List String} {c : Nat} {rel : String}
    (hcont : contentNotHeaderlike fd = true)
    (hok : processOneFile maxsz r fd = .ok (ls, c))
    (hmem : ("## File: " ++ rel) ∈ ls) : rel = r := by
  have hERR : ∀ e : PyErr, ("## File: " ++ rel) ∉ errLines r e := by
    intro e hin
    simp only [errLines, List.mem_cons, List.not_mem_nil, or_false] at hin
    rcases hin with h | h
    · rw [append3_reassoc] at h
      exact append_ne_of_takek 2 _ _ (by decide) (by decide) (by decide) h
    · exact hdr_ne_empty rel h
  have hHDR : ∀ st : StatInfo, ("## File: " ++ rel) ∈ headerLines r st → rel = r := by
    intro st hin
    simp only [headerLines, List.mem_cons, List.not_mem_nil, or_false] at hin
    rcases hin with h | h | h
    · exact strExt (List.append_cancel_left (by
        have := congrArg String.data h
        simpa only [String.data_append] using this))
    · rw [append3_reassoc] at h
      exact absurd h (append_ne_of_takek 4 _ _ (by decide) (by decide) (by decide))
    · exact absurd h.symm (ne_append_of_take2 _ (by decide) (by decide))
  match hst : fd.statRes with
  | .error e =>
    by_cases hc : catchableErr e = true
    · simp only [processOneFile, hst, hc, if_true, Except.ok.injEq] at hok
      injection hok with hinj hinj2
      rw [← hinj] at hmem
      exact absurd hmem (hERR e)
    · simp only [processOneFile, hst, hc, if_false] at hok
      exact absurd hok (by simp)
  | .ok st =>
    by_cases hsz : sizeTooBig maxsz st.st_size = true
    · simp only [processOneFile, hst, hsz, if_true, Except.ok.injEq] at hok
      injection hok with hinj hinj2
      rw [← hinj] at hmem
      simp only [skipLines, List.mem_cons, List.not_mem_nil, or_false] at hmem
      rcases hmem with h | h | h
      · exact absurd h (append_ne_of_takek 2 _ _ (by decide) (by decide) (by decide))
      · exact absurd h (append_ne_of_takek 2 _ _ (by decide) (by decide) (by decide))
      · exact absurd h (hdr_ne_empty rel)
    · rw [Bool.not_eq_true] at hsz
      match hrd : fd.readRes with
      | .error e =>
        by_cases hc : catchableErr e = true
        · simp only [processOneFile, hst, hsz, Bool.false_eq_true, if_false, hrd, hc,
            if_true, Except.ok.injEq] at hok
          injection hok with hinj hinj2
          rw [← hinj] at hmem
          rcases List.mem_append.mp hmem with h | h
          · exact hHDR st h
          · exact absurd h (hERR e)
        · simp only [processOneFile, hst, hsz, Bool.false_eq_true, if_false, hrd, hc] at hok
          exact absurd hok (by simp)
      | .ok cs =>
        simp only [processOneFile, hst, hsz, Bool.false_eq_true, if_false, hrd,
          Except.ok.injEq] at hok
        injection hok with hinj hinj2
        rw [← hinj] at hmem
        rcases List.mem_append.mp hmem with h | h
        · exact hHDR st h
        · simp only [List.mem_cons, List.not_mem_nil, or_false] at h
          rcases h with h | h | h
          · exfalso
            rw [contentNotHeaderlike, hrd, Bool.not_eq_eq_eq_not, Bool.not_true] at hcont
            rw [← h, strStarts_append_self] at hcont
            exact absurd hcont (by decide)
          · exact absurd h.symm (ne_append_of_take2 _ (by decide) (by decide))
          · exact absurd h (hdr_ne_empty rel)

theorem walkFilesAcc_header_mem {exts : Option (List String)} {maxsz : Option Nat}
    {relDir : String} {fps : List (String × FileData)} {ls : List String} {c : Nat}
    {rel : String}
    (hcont : ∀ p ∈ fps, contentNotHeaderlike p.2 = true)
    (hok : walkFilesAcc exts maxsz relDir fps = .ok (ls, c))
    (hmem : ("## File: " ++ rel) ∈ ls) :
    ∃ n fd, (n, fd) ∈ fps ∧ walkFileFilter exts n = true ∧ rel = joinRel relDir n := by
  induction fps generalizing ls c with
  | nil =>
    simp only [walkFilesAcc, Except.ok.injEq] at hok
    injection hok with hinj hinj2
    rw [← hinj] at hmem
    exact absurd hmem (List.not_mem_nil _)
  | cons q rest ih =>
    obtain ⟨n, fd⟩ := q
    by_cases hf : walkFileFilter exts n = true
    · rw [walkFilesAcc, if_pos hf] at hok
      rcases combineEx_eq_ok.mp hok with ⟨l1, c1, l2, c2, h1, h2, hl, -⟩
      rw [hl] at hmem
      rcases List.mem_append.mp hmem with h | h
      · have := processOneFile_header_mem (hcont (n, fd) (List.mem_cons_self _ _)) h1 h
        exact ⟨n, fd, List.mem_cons_self _ _, hf, this⟩
      · obtain ⟨n', fd', hmem', hf', hrel'⟩ :=
          ih (fun p hp => hcont p (List.mem_cons_of_mem _ hp)) h2 h
        exact ⟨n', fd', List.mem_cons_of_mem _ hmem', hf', hrel'⟩
    · rw [walkFilesAcc, if_neg hf] at hok
      obtain ⟨n', fd', hmem', hf', hrel'⟩ :=
        ih (fun p hp => hcont p (List.mem_cons_of_mem _ hp)) hok hmem
      exact ⟨n', fd', List.mem_cons_of_mem _ hmem', hf', hrel'⟩

theorem namesSlashFreeE_filePairs {l : EList} (h : namesSlashFreeE l = true) :
    ∀ p ∈ filePairs l, strHasChar p.1 '/' = false := by
  refine elist_induction
    (fun l => namesSlashFreeE l = true → ∀ p ∈ filePairs l, strHasChar p.1 '/' = false)
    ?_ ?_ ?_ l h
  · intro _ p hp
    simp [filePairs] at hp
  · intro n fd rest ih hc p hp
    rw [namesSlashFreeE, Bool.and_eq_true] at hc
    rcases List.mem_cons.mp hp with hph | hpt
    · rw [hph]
      simpa using hc.1
    · exact ih hc.2 p hpt
  · intro n den s rest _ ih hc p hp
    rw [namesSlashFreeE, Bool.and_eq_true, Bool.and_eq_true] at hc
    exact ih hc.2 p hp

theorem noHeaderContentE_filePairs {l : EList} (h : noHeaderContentE l = true) :
    ∀ p ∈ filePairs l, contentNotHeaderlike p.2 = true := by
  refine elist_induction
    (fun l => noHeaderContentE l = true → ∀ p ∈ filePairs l, contentNotHeaderlike p.2 = true)
    ?_ ?_ ?_ l h
  · intro _ p hp
    simp [filePairs] at hp
  · intro n fd rest ih hc p hp
    rw [noHeaderContentE, Bool.and_eq_true] at hc
    rcases List.mem_cons.mp hp with hph | hpt
    · rw [hph]
      exact hc.1
    · exact ih hc.2 p hpt
  · intro n den s rest _ ih hc p hp
    rw [noHeaderContentE, Bool.and_eq_true] at hc
    exact ih hc.2 p hp

theorem depthStop_false {maxd : Option Nat} {d : Nat} (h : depthStop maxd d = false) :
    ∀ m, maxd = some m → d < m := by
  intro m hm
  rw [hm, depthStop, decide_eq_false_iff_not] at h
  omega

theorem walkChildren_header_mem (exts : Option (List String)) (excl : List String)
    (maxsz maxd : Option Nat) (l : EList) :
    ∀ relDir ls c rel, namesSlashFreeE l = true → noHeaderContentE l = true →
      walkChildren exts excl maxsz maxd relDir l = .ok (ls, c) →
      ("## File: " ++ rel) ∈ ls →
      ∃ dirRel n, rel = joinRel dirRel n ∧ strHasChar n '/' = false ∧
        walkFileFilter exts n = true ∧ ∀ m, maxd = some m → curDepth dirRel < m := by
  refine elist_induction
    (fun l => ∀ relDir ls c rel, namesSlashFreeE l = true → noHeaderContentE l = true →
      walkChildren exts excl maxsz maxd relDir l = .ok (ls, c) →
      ("## File: " ++ rel) ∈ ls →
      ∃ dirRel n, rel = joinRel dirRel n ∧ strHasChar n '/' = false ∧
        walkFileFilter exts n = true ∧ ∀ m, maxd = some m → curDepth dirRel < m) ?_ ?_ ?_ l
  · intro relDir ls c rel _ _ hok hmem
    simp only [walkChildren, Except.ok.injEq] at hok
    injection hok with hinj hinj2
    rw [← hinj] at hmem
    exact absurd hmem (List.not_mem_nil _)
  · intro n fd rest ih relDir ls c rel hsf hnh hok hmem
    rw [namesSlashFreeE, Bool.and_eq_true] at hsf
    rw [noHeaderContentE, Bool.and_eq_true] at hnh
    exact ih relDir ls c rel hsf.2 hnh.2 (by simpa [walkChildren] using hok) hmem
  · intro n den s rest ihs ih relDir ls c rel hsf hnh hok hmem
    rw [namesSlashFreeE, Bool.and_eq_true, Bool.and_eq_true] at hsf
    rw [noHeaderContentE, Bool.and_eq_true] at hnh
    by_cases hx : n ∈ excl
    · rw [walkChildren, if_pos hx] at hok
      exact ih relDir ls c rel hsf.2 hnh.2 hok hmem
    · rw [walkChildren, if_neg hx] at hok
      rcases combineEx_eq_ok.mp hok with ⟨l1, c1, l2, c2, h1, h2, hl, -⟩
      rw [hl] at hmem
      rcases List.mem_append.mp hmem with hmm | hmm
      · by_cases hden : den = true
        · rw [hden] at h1
          simp only [if_true, Except.ok.injEq] at h1
          injection h1 with hinj hinj2
          rw [← hinj] at hmm
          exact absurd hmm (List.not_mem_nil _)
        · rw [Bool.not_eq_true] at hden
          rw [hden] at h1
          simp only [Bool.false_eq_true, if_false] at h1
          by_cases hstop : depthStop maxd (curDepth (joinRel relDir n)) = true
          · rw [if_pos hstop] at h1
            simp only [Except.ok.injEq] at h1
            injection h1 with hinj hinj2
            rw [← hinj] at hmm
            exact absurd hmm (List.not_mem_nil _)
          · rw [Bool.not_eq_true] at hstop
            rw [if_neg (by rw [hstop]; exact Bool.false_ne_true)] at h1
            rcases combineEx_eq_ok.mp h1 with ⟨f1, fc1, f2, fc2, hf1, hf2, hfl, -⟩
            rw [hfl] at hmm
            rcases List.mem_append.mp hmm with hmf | hmc
            · obtain ⟨n', fd', hpmem, hfil, hrel⟩ :=
                walkFilesAcc_header_mem
                  (fun p hp => noHeaderContentE_filePairs hnh.1 p
                    ((List.perm_insertionSort _ _).mem_iff.mp hp)) hf1 hmf
              refine ⟨joinRel relDir n, n', hrel, ?_, hfil, depthStop_false hstop⟩
              exact namesSlashFreeE_filePairs hsf.1.2 (n', fd')
                ((List.perm_insertionSort _ _).mem_iff.mp hpmem)
            · exact ihs (joinRel relDir n) f2 fc2 rel hsf.1.2 hnh.1 hf2 hmc
      · exact ih relDir l2 c2 rel hsf.2 hnh.2 h2 hmm

/-- C4: every `## File: <relpath>` header emitted by the Source Files walk
names a file whose bare name passes the walk's extension test (line 118) and
whose containing directory lies at a depth strictly below the configured
max-depth (root = depth 0), or max-depth is unset.  The hypotheses say the
tree is a real one: entry names contain no path separator, and no file's
decoded content is itself a single string of header shape (which would be
indistinguishable from a header in the flat output). -/
theorem c4_header_implies_filter_and_depth (exts : Option (List String)) (excl : List String)
    (maxsz maxd : Option Nat) (relDir : String) (den : Bool) (l : EList)
    (ls : List String) (c : Nat) (rel : String)
    (hsf : namesSlashFreeE l = true) (hnh : noHeaderContentE l = true)
    (hok : walkDirNode exts excl maxsz maxd relDir den l = .ok (ls, c))
    (hmem : ("## File: " ++ rel) ∈ ls) :
    ∃ dirRel n, rel = joinRel dirRel n ∧ strHasChar n '/' = false ∧
      walkFileFilter exts n = true ∧ ∀ m, maxd = some m → curDepth dirRel < m := by
  by_cases hden : den = true
  · rw [walkDirNode, if_pos hden] at hok
    simp only [Except.ok.injEq] at hok
    injection hok with hinj hinj2
    rw [← hinj] at hmem
    exact absurd hmem (List.not_mem_nil _)
  · rw [Bool.not_eq_true] at hden
    rw [walkDirNode, if_neg (by rw [hden]; exact Bool.false_ne_true)] at hok
    by_cases hstop : depthStop maxd (curDepth relDir) = true
    · rw [if_pos hstop] at hok
      simp only [Except.ok.injEq] at hok
      injection hok with hinj hinj2
      rw [← hinj] at hmem
      exact absurd hmem (List.not_mem_nil _)
    · rw [Bool.not_eq_true] at hstop
      rw [if_neg (by rw [hstop]; exact Bool.false_ne_true)] at hok
      rcases combineEx_eq_ok.mp hok with ⟨f1, fc1, f2, fc2, hf1, hf2, hfl, -⟩
      rw [hfl] at hmem
      rcases List.mem_append.mp hmem with hmf | hmc
      · obtain ⟨n', fd', hpmem, hfil, hrel⟩ :=
          walkFilesAcc_header_mem
            (fun p hp => noHeaderContentE_filePairs hnh p
              ((List.perm_insertionSort _ _).mem_iff.mp hp)) hf1 hmf
        refine ⟨relDir, n', hrel, ?_, hfil, depthStop_false hstop⟩
        exact namesSlashFreeE_filePairs hsf (n', fd')
          ((List.perm_insertionSort _ _).mem_iff.mp hpmem)
      · exact walkChildren_header_mem exts excl maxsz maxd l relDir f2 fc2 rel hsf hnh hf2 hmc

/-- Witness for C4 on a one-file tree. -/
theorem c4_witness :
    (namesSlashFreeE (.cons (.file "a.py" ⟨.ok ⟨1, "m"⟩, .ok [.valid "x"]⟩) .nil) = true ∧
      noHeaderContentE (.cons (.file "a.py" ⟨.ok ⟨1, "m"⟩, .ok [.valid "x"]⟩) .nil) = true ∧
      walkDirNode (some ["py"]) [] none (some 1) "" false
          (.cons (.file "a.py" ⟨.ok ⟨1, "m"⟩, .ok [.valid "x"]⟩) .nil) =
        .ok (["## File: a.py", "## Size: 1.00 B | Last Modified: m", "```", "x", "```", ""],
          1) ∧
      ("## File: " ++ "a.py") ∈
        ["## File: a.py", "## Size: 1.00 B | Last Modified: m", "```", "x", "```", ""]) ∧
    (∃ dirRel n, "a.py" = joinRel dirRel n ∧ strHasChar n '/' = false ∧
      walkFileFilter (some ["py"]) n = true ∧
      ∀ m, (some 1 : Option Nat) = some m → curDepth dirRel < m) :=
  ⟨⟨by decide, by decide, by decide, by decide⟩,
    c4_header_implies_filter_and_depth (some ["py"]) [] none (some 1) "" false
      (.cons (.file "a.py" ⟨.ok ⟨1, "m"⟩, .ok [.valid "x"]⟩) .nil)
      ["## File: a.py", "## Size: 1.00 B | Last Modified: m", "```", "x", "```", ""] 1 "a.py"
      (by decide) (by decide) (by decide) (by decide)⟩

theorem charEq_of_toNat {a b : Char} (h : a.toNat = b.toNat) : a = b :=
  Char.ext (UInt32.ext h)

theorem listLe_total : ∀ a b : List Char, listLe a b = true ∨ listLe b a = true
  | [], _ => Or.inl rfl
  | _ :: _, [] => Or.inr rfl
  | a :: as, b :: bs => by
    by_cases h : a.toNat = b.toNat
    · rcases listLe_total as bs with ih | ih
      · left; rw [listLe, if_pos h]; exact ih
      · right; rw [listLe, if_pos h.symm]; exact ih
    · by_cases hlt : a.toNat < b.toNat
      · left; rw [listLe, if_neg h]; exact decide_eq_true hlt
      · right
        rw [listLe, if_neg (fun hh => h hh.symm)]
        exact decide_eq_true (by omega)

theorem listLe_trans : ∀ a b c : List Char,
    listLe a b = true → listLe b c = true → listLe a c = true
  | [], _, _ => fun _ _ => rfl
  | _ :: _, [], _ => fun h _ => by simp [listLe] at h
  | _ :: _, _ :: _, [] => fun _ h => by simp [listLe] at h
  | a :: as, b :: bs, c :: cs => fun h1 h2 => by
    rw [listLe] at h1 h2 ⊢
    by_cases hab : a.toNat = b.toNat
    · rw [if_pos hab] at h1
      by_cases hbc : b.toNat = c.toNat
      · rw [if_pos hbc] at h2
        rw [if_pos (hab.trans hbc)]
        exact listLe_trans as bs cs h1 h2
      · rw [if_neg hbc] at h2
        have hlt : b.toNat < c.toNat := of_decide_eq_true h2
        rw [if_neg (by omega)]
        exact decide_eq_true (by omega)
    · rw [if_neg hab] at h1
      have hlt1 : a.toNat < b.toNat := of_decide_eq_true h1
      by_cases hbc : b.toNat = c.toNat
      · rw [if_neg (by omega)]
        exact decide_eq_true (by omega)
      · rw [if_neg hbc] at h2
        have hlt2 : b.toNat < c.toNat := of_decide_eq_true h2
        rw [if_neg (by omega)]
        exact decide_eq_true (by omega)

theorem listLe_antisymm : ∀ a b : List Char,
    listLe a b = true → listLe b a = true → a = b
  | [], [], _, _ => rfl
  | [], _ :: _, _, h2 => by simp [listLe] at h2
  | _ :: _, [], h1, _ => by simp [listLe] at h1
  | a :: as, b :: bs, h1, h2 => by
    rw [listLe] at h1 h2
    by_cases hab : a.toNat = b.toNat
    · rw [if_pos hab] at h1
      rw [if_pos hab.symm] at h2
      rw [charEq_of_toNat hab, listLe_antisymm as bs h1 h2]
    · rw [if_neg hab] at h1
      rw [if_neg (fun hh => hab hh.symm)] at h2
      have ha := of_decide_eq_true h1
      have hb := of_decide_eq_true h2
      omega

theorem strLe_antisymm {s t : String} (h1 : strLe s t = true) (h2 : strLe t s = true) :
    s = t :=
  strExt (listLe_antisymm s.data t.data h1 h2)

theorem sortPairs_sorted {α : Type} (ps : List (String × α)) :
    List.Sorted (fun a b : String × α => strLe a.1 b.1 = true) (sortPairs ps) := by
  haveI : IsTotal (String × α) (fun a b : String × α => strLe a.1 b.1 = true) :=
    ⟨fun a b => listLe_total a.1.data b.1.data⟩
  haveI : IsTrans (String × α) (fun a b : String × α => strLe a.1 b.1 = true) :=
    ⟨fun a b c h1 h2 => listLe_trans a.1.data b.1.data c.1.data h1 h2⟩
  exact List.sorted_insertionSort _ ps

theorem sorted_nodup_perm_eq {α : Type} :
    ∀ (xs ys : List (String × α)), xs.Perm ys →
      List.Sorted (fun a b : String × α => strLe a.1 b.1 = true) xs →
      List.Sorted (fun a b : String × α => strLe a.1 b.1 = true) ys →
      (xs.map Prod.fst).Nodup → xs = ys
  | [], ys, hp, _, _, _ => (hp.symm.eq_nil).symm
  | x :: xs, [], hp, _, _, _ => absurd hp.eq_nil (by simp)
  | x :: xs, y :: ys', hp, hsx, hsy, hnd => by
    have hxy : x = y := by
      by_contra hne
      have hxmem : x ∈ y :: ys' := hp.mem_iff.mp (List.mem_cons_self x xs)
      have hymem : y ∈ x :: xs := hp.mem_iff.mpr (List.mem_cons_self y ys')
      have hx' : x ∈ ys' := by
        rcases List.mem_cons.mp hxmem with h | h
        · exact absurd h hne
        · exact h
      have hy' : y ∈ xs := by
        rcases List.mem_cons.mp hymem with h | h
        · exact absurd h.symm hne
        · exact h
      have h1 : strLe x.1 y.1 = true := (List.sorted_cons.mp hsx).1 y hy'
      have h2 : strLe y.1 x.1 = true := (List.sorted_cons.mp hsy).1 x hx'
      have hkey : x.1 = y.1 := strLe_antisymm h1 h2
      have hmemk : x.1 ∈ xs.map Prod.fst := by
        rw [hkey]
        exact List.mem_map_of_mem Prod.fst hy'
      exact (List.nodup_cons.mp hnd).1 hmemk
    subst hxy
    have hrest := sorted_nodup_perm_eq xs ys' hp.cons_inv (List.sorted_cons.mp hsx).2
      (List.sorted_cons.mp hsy).2 (List.nodup_cons.mp hnd).2
    rw [hrest]

theorem sortPairs_eq_of_perm {α : Type} (ps qs : List (String × α)) (hp : ps.Perm qs)
    (hnd : (ps.map Prod.fst).Nodup) : sortPairs ps = sortPairs qs := by
  have hperm : (sortPairs ps).Perm (sortPairs qs) :=
    (List.perm_insertionSort _ ps).trans (hp.trans (List.perm_insertionSort _ qs).symm)
  have hnd' : ((sortPairs ps).map Prod.fst).Nodup := by
    have : ((sortPairs ps).map Prod.fst).Perm (ps.map Prod.fst) :=
      (List.perm_insertionSort _ ps).map Prod.fst
    exact this.nodup_iff.mpr hnd
  exact sorted_nodup_perm_eq _ _ hperm (sortPairs_sorted ps) (sortPairs_sorted qs) hnd'

theorem sketchItemOf_fst (exts : Option (List String)) (excl : List String)
    (maxd : Option Nat) (path : String) (cd : Nat) (e : Entry) :
    (sketchItemOf exts excl maxd path cd e).1 = e.name := by
  match e with
  | .file n fd => rfl
  | .dir n den s => rfl

theorem filePairs_eq_filterMap (l : EList) :
    filePairs l = (EList.toList l).filterMap fileEntryPair := by
  refine elist_induction
    (fun l => filePairs l = (EList.toList l).filterMap fileEntryPair) rfl ?_ ?_ l
  · intro n fd rest ih
    simp [filePairs, EList.toList, List.filterMap_cons, fileEntryPair, ih]
  · intro n den s rest _ ih
    simp [filePairs, EList.toList, List.filterMap_cons, fileEntryPair, ih]

theorem filePairs_fst_sublist (l : EList) :
    ((filePairs l).map Prod.fst).Sublist (levelNames l) := by
  refine elist_induction
    (fun l => ((filePairs l).map Prod.fst).Sublist (levelNames l)) ?_ ?_ ?_ l
  · simp [filePairs, levelNames, EList.toList]
  · intro n fd rest ih
    simp only [filePairs, levelNames, EList.toList, List.map_cons]
    exact ih.cons₂ n
  · intro n den s rest _ ih
    simp only [filePairs, levelNames, EList.toList, List.map_cons]
    exact ih.cons (Entry.name (.dir n den s))

theorem walkChildrenL_dirs (exts : Option (List String)) (excl : List String)
    (maxsz maxd : Option Nat) (relDir : String) (L : List Entry) :
    walkChildrenL exts excl maxsz maxd relDir L =
      walkChildrenL exts excl maxsz maxd relDir (dirEntriesOnly L) := by
  induction L with
  | nil => rfl
  | cons e rest ih =>
    match e with
    | .file n fd =>
      have hd : dirEntriesOnly (Entry.file n fd :: rest) = dirEntriesOnly rest := by
        simp [dirEntriesOnly]
      rw [hd, ← ih]
      rfl
    | .dir n den s =>
      have hd : dirEntriesOnly (Entry.dir n den s :: rest) =
          Entry.dir n den s :: dirEntriesOnly rest := by
        simp [dirEntriesOnly]
      rw [hd, walkChildrenL, walkChildrenL, ih]

/-- C9 (counterexample): two trees denoting the *same* directory state — the
same entries with the same contents, sizes and timestamps, merely enumerated
by the filesystem in a different sibling order — produce different documents:
the walk of `process_files` visits subdirectories in enumeration order
(line 116 sorts only `files`, never `dirs`), so the two runs order the
`a/f.py` and `b/g.py` blocks differently.  The claim's 'directory entries
... processed in sorted order' is false. -/
theorem c9_counterexample :
    (EList.toList (.cons (.dir "b" false (.cons (.file "g.py" ⟨.ok ⟨1, "m"⟩, .ok [.valid "y"]⟩) .nil))
        (.cons (.dir "a" false (.cons (.file "f.py" ⟨.ok ⟨1, "m"⟩, .ok [.valid "x"]⟩) .nil)) .nil))).Perm
      (EList.toList (.cons (.dir "a" false (.cons (.file "f.py" ⟨.ok ⟨1, "m"⟩, .ok [.valid "x"]⟩) .nil))
        (.cons (.dir "b" false (.cons (.file "g.py" ⟨.ok ⟨1, "m"⟩, .ok [.valid "y"]⟩) .nil)) .nil))) ∧
    process_files "r" none [] none none false
        (.cons (.dir "b" false (.cons (.file "g.py" ⟨.ok ⟨1, "m"⟩, .ok [.valid "y"]⟩) .nil))
          (.cons (.dir "a" false (.cons (.file "f.py" ⟨.ok ⟨1, "m"⟩, .ok [.valid "x"]⟩) .nil)) .nil)) ≠
      process_files "r" none [] none none false
        (.cons (.dir "a" false (.cons (.file "f.py" ⟨.ok ⟨1, "m"⟩, .ok [.valid "x"]⟩) .nil))
          (.cons (.dir "b" false (.cons (.file "g.py" ⟨.ok ⟨1, "m"⟩, .ok [.valid "y"]⟩) .nil)) .nil)) :=
  ⟨List.Perm.swap _ _ _, by decide⟩

theorem perm_any_eq {α : Type} {l1 l2 : List α} (h : l1.Perm l2) (f : α → Bool) :
    l1.any f = l2.any f := by
  induction h with
  | nil => rfl
  | cons x _ ih => simp [List.any_cons, ih]
  | swap x y l =>
    simp only [List.any_cons]
    cases f x <;> cases f y <;> simp
  | trans _ _ ih1 ih2 => exact ih1.trans ih2

theorem any_of_map_eq {α : Type} {m L : List α} {f : α → Bool} (h : m.map f = L.map f) :
    m.any f = L.any f := by
  have h1 : ∀ (t : List α), t.any f = (t.map f).any id := by
    intro t
    induction t with
    | nil => rfl
    | cons a r ih => simp [List.any_cons, ih]
  rw [h1 m, h1 L, h]

theorem subtreeAnyMatch_eq_any (exts : Option (List String)) (path : String) (l : EList) :
    subtreeAnyMatch exts path l = (EList.toList l).any (entryMatchContrib exts path) := by
  refine elist_induction
    (fun l => subtreeAnyMatch exts path l =
      (EList.toList l).any (entryMatchContrib exts path)) rfl ?_ ?_ l
  · intro n fd rest ih
    simp [subtreeAnyMatch, EList.toList, List.any_cons, entryMatchContrib, ih]
  · intro n den s rest _ ih
    simp [subtreeAnyMatch, EList.toList, List.any_cons, entryMatchContrib, ih]

theorem subsNodupE_eq_L (l : EList) : subsNodupE l = subsNodupL (EList.toList l) := by
  refine elist_induction (fun l => subsNodupE l = subsNodupL (EList.toList l)) rfl ?_ ?_ l
  · intro n fd rest ih
    simp [subsNodupE, EList.toList, subsNodupL, ih]
  · intro n den s rest _ ih
    simp [subsNodupE, EList.toList, subsNodupL, ih, treeNodupE]

theorem sketchItems_fst (exts : Option (List String)) (excl : List String) (maxd : Option Nat)
    (path : String) (cd : Nat) (l : EList) :
    (sketchItems exts excl maxd path cd l).map Prod.fst = levelNames l := by
  rw [sketchItems_eq_map, List.map_map, levelNames]
  exact List.map_congr_left fun e _ => sketchItemOf_fst exts excl maxd path cd e

theorem sizeOf_lt_of_mem_toList {l : EList} : ∀ e ∈ EList.toList l, sizeOf e < sizeOf l := by
  refine elist_induction (fun l => ∀ e ∈ EList.toList l, sizeOf e < sizeOf l) ?_ ?_ ?_ l
  · intro e he
    simp [EList.toList] at he
  · intro n fd rest ih e he
    rw [EList.toList, List.mem_cons] at he
    rcases he with h | h
    · subst h
      simp
      omega
    · have := ih e h
      simp
      omega
  · intro n den s rest _ ih e he
    rw [EList.toList, List.mem_cons] at he
    rcases he with h | h
    · subst h
      simp
      omega
    · have := ih e h
      simp
      omega

theorem reEnum_invariant : ∀ (N : Nat) (l : EList), sizeOf l < N →
    ∀ (l2 : EList), ReEnum l2 l → treeNodupE l = true →
    (∀ exts path, subtreeAnyMatch exts path l2 = subtreeAnyMatch exts path l) ∧
    (∀ exts excl maxd path cd den,
      sketchLevelLines exts excl maxd path cd den l2 =
        sketchLevelLines exts excl maxd path cd den l) ∧
    (∀ exts excl maxsz maxd relDir den,
      walkDirNode exts excl maxsz maxd relDir den l2 =
        walkDirNode exts excl maxsz maxd relDir den l) := by
  intro N
  induction N with
  | zero =>
    intro l hsz
    exact absurd hsz (by omega)
  | succ N ih =>
    intro l hsz l2 henum hnd
    obtain ⟨mid, hperm, hdirs, hpw⟩ := henum
    have hnl : (levelNames l).Nodup := by
      rw [treeNodupE, Bool.and_eq_true] at hnd
      exact of_decide_eq_true hnd.1
    have hsubs : subsNodupL (EList.toList l) = true := by
      rw [treeNodupE, Bool.and_eq_true] at hnd
      rw [← subsNodupE_eq_L]
      exact hnd.2
    have hLsz : ∀ e ∈ EList.toList l, sizeOf e < N := by
      intro e he
      have h1 := sizeOf_lt_of_mem_toList e he
      omega
    have haux : ∀ (M L : List Entry), PWReEnum M L → (∀ e ∈ L, sizeOf e < N) →
        subsNodupL L = true →
        (M.map Entry.name = L.map Entry.name) ∧
        (∀ exts path,
          M.map (entryMatchContrib exts path) = L.map (entryMatchContrib exts path)) ∧
        (∀ exts excl maxd path cd,
          M.map (sketchItemOf exts excl maxd path cd) =
            L.map (sketchItemOf exts excl maxd path cd)) ∧
        (M.filterMap fileEntryPair = L.filterMap fileEntryPair) ∧
        (∀ exts excl maxsz maxd relDir,
          walkChildrenL exts excl maxsz maxd relDir M =
            walkChildrenL exts excl maxsz maxd relDir L) := by
      intro M
      induction M with
      | nil =>
        intro L hpw' _ _
        cases hpw'
        exact ⟨rfl, fun _ _ => rfl, fun _ _ _ _ _ => rfl, rfl, fun _ _ _ _ _ => rfl⟩
      | cons e2 M' ihM =>
        intro L hpw' hLs hLn
        cases hpw' with
        | cons hentry htail =>
          cases hentry with
          | file n fd =>
            obtain ⟨t1, t2, t3, t4, t5⟩ := ihM _ htail
              (fun x hx => hLs x (List.mem_cons_of_mem _ hx))
              (by simpa [subsNodupL] using hLn)
            refine ⟨?_, ?_, ?_, ?_, ?_⟩
            · simp [List.map_cons, t1]
            · intro exts path
              simp [List.map_cons, t2 exts path]
            · intro exts excl maxd path cd
              simp [List.map_cons, t3 exts excl maxd path cd]
            · simp [List.filterMap_cons, fileEntryPair, t4]
            · intro exts excl maxsz maxd relDir
              simpa only [walkChildrenL] using t5 exts excl maxsz maxd relDir
          | dir n den hsub =>
            rename_i s2 s
            simp only [subsNodupL, Bool.and_eq_true] at hLn
            have hns : treeNodupE s = true := hLn.1
            have hszs : sizeOf s < N := by
              have h1 : sizeOf (Entry.dir n den s) < N := hLs _ (List.mem_cons_self _ _)
              have h2 : sizeOf s < sizeOf (Entry.dir n den s) := by
                simp
              omega
            obtain ⟨hany, hsk, hwalk⟩ := ih s hszs s2 hsub hns
            obtain ⟨t1, t2, t3, t4, t5⟩ := ihM _ htail
              (fun x hx => hLs x (List.mem_cons_of_mem _ hx)) hLn.2
            have hgfds : ∀ exts excl maxd path cd,
                get_filtered_directory_structure exts excl maxd path cd den s2 =
                  get_filtered_directory_structure exts excl maxd path cd den s := by
              intro exts excl maxd path cd
              simp only [get_filtered_directory_structure]
              rw [hsk exts excl maxd path cd den]
            have hitem : ∀ exts excl maxd path cd,
                sketchItemOf exts excl maxd path cd (.dir n den s2) =
                  sketchItemOf exts excl maxd path cd (.dir n den s) := by
              intro exts excl maxd path cd
              simp only [sketchItemOf, subtreeHasMatch]
              rw [hany exts (pjoin path n), hgfds exts excl maxd (pjoin path n) (cd + 1)]
            refine ⟨?_, ?_, ?_, ?_, ?_⟩
            · simp [List.map_cons, t1, Entry.name]
            · intro exts path
              simp only [List.map_cons, entryMatchContrib, t2 exts path,
                hany exts (pjoin path n)]
            · intro exts excl maxd path cd
              simp only [List.map_cons, t3 exts excl maxd path cd,
                hitem exts excl maxd path cd]
            · simp [List.filterMap_cons, fileEntryPair, t4]
            · intro exts excl maxsz maxd relDir
              simp only [walkChildrenL]
              rw [hwalk exts excl maxsz maxd (joinRel relDir n) den,
                t5 exts excl maxsz maxd relDir]
    obtain ⟨p1, p2, p3, p4, p5⟩ := haux mid (EList.toList l) hpw hLsz hsubs
    refine ⟨?_, ?_, ?_⟩
    · intro exts path
      rw [subtreeAnyMatch_eq_any, subtreeAnyMatch_eq_any]
      have ha1 : (EList.toList l2).any (entryMatchContrib exts path) =
          mid.any (entryMatchContrib exts path) := perm_any_eq hperm _
      have ha2 : mid.any (entryMatchContrib exts path) =
          (EList.toList l).any (entryMatchContrib exts path) :=
        any_of_map_eq (p2 exts path)
      rw [ha1, ha2]
    · intro exts excl maxd path cd den
      match den with
      | true => simp [sketchLevelLines]
      | false =>
        have hitems : (sketchItems exts excl maxd path cd l).Perm
            (sketchItems exts excl maxd path cd l2) := by
          rw [sketchItems_eq_map, sketchItems_eq_map, ← p3 exts excl maxd path cd]
          exact (hperm.map _).symm
        have hsorted : sortPairs (sketchItems exts excl maxd path cd l) =
            sortPairs (sketchItems exts excl maxd path cd l2) := by
          apply sortPairs_eq_of_perm _ _ hitems
          rw [sketchItems_fst]
          exact hnl
        simp only [sketchLevelLines, Bool.false_eq_true, if_false]
        rw [← hsorted]
    · intro exts excl maxsz maxd relDir den
      have hfp : (filePairs l).Perm (filePairs l2) := by
        rw [filePairs_eq_filterMap, filePairs_eq_filterMap, ← p4]
        exact (hperm.filterMap _).symm
      have hfiles : sortPairs (filePairs l) = sortPairs (filePairs l2) := by
        apply sortPairs_eq_of_perm _ _ hfp
        exact (filePairs_fst_sublist l).nodup hnl
      have hch : walkChildren exts excl maxsz maxd relDir l2 =
          walkChildren exts excl maxsz maxd relDir l :=
        calc walkChildren exts excl maxsz maxd relDir l2
            = walkChildrenL exts excl maxsz maxd relDir (EList.toList l2) :=
              walkChildren_eq_L exts excl maxsz maxd l2 relDir
          _ = walkChildrenL exts excl maxsz maxd relDir
                (dirEntriesOnly (EList.toList l2)) :=
              walkChildrenL_dirs exts excl maxsz maxd relDir (EList.toList l2)
          _ = walkChildrenL exts excl maxsz maxd relDir (dirEntriesOnly mid) := by
              rw [hdirs]
          _ = walkChildrenL exts excl maxsz maxd relDir mid :=
              (walkChildrenL_dirs exts excl maxsz maxd relDir mid).symm
          _ = walkChildrenL exts excl maxsz maxd relDir (EList.toList l) :=
              p5 exts excl maxsz maxd relDir
          _ = walkChildren exts excl maxsz maxd relDir l :=
              (walkChildren_eq_L exts excl maxsz maxd l relDir).symm
      simp only [walkDirNode]
      rw [← hfiles, hch]

/-- C9 (amended): the builder is deterministic only *relative to the
filesystem's enumeration order of subdirectories*: the sketch sorts every
level and the walk sorts the files of each directory, so any re-enumeration
of the same tree state — at every directory level the entries may be listed
in any order that keeps the relative order of the subdirectory entries, and
each subdirectory's listing may be re-enumerated likewise (`ReEnum`) —
yields a character-for-character identical document; re-enumerations that
reorder sibling subdirectories can permute the Source Files blocks (see the
counterexample).  The name-distinctness hypothesis is what a real
filesystem guarantees. -/
theorem c9_deterministic_up_to_dir_order (directory : String) (exts : Option (List String))
    (excl : List String) (maxsz maxd : Option Nat) (rootDen : Bool) (l l2 : EList)
    (henum : ReEnum l2 l) (hnd : treeNodupE l = true) :
    process_files directory exts excl maxsz maxd rootDen l2 =
      process_files directory exts excl maxsz maxd rootDen l := by
  obtain ⟨-, hsk, hwalk⟩ :=
    reEnum_invariant (sizeOf l + 1) l (by omega) l2 henum hnd
  have hw := hwalk exts excl maxsz maxd "" rootDen
  have hsketch : get_filtered_directory_structure exts excl maxd directory 0 rootDen l2 =
      get_filtered_directory_structure exts excl maxd directory 0 rootDen l := by
    simp only [get_filtered_directory_structure]
    rw [hsk exts excl maxd directory 0 rootDen]
  rw [process_files, process_files, hw, hsketch]

/-- Witness for C9's amended theorem: a deep re-enumeration — the two files
*inside the subdirectory* `d` are enumerated in the opposite order — yields
the identical document. -/
theorem c9_witness :
    (ReEnum
        (.cons (.dir "d" false (.cons (.file "b.txt" ⟨.ok ⟨2, "m"⟩, .ok [.valid "y"]⟩)
          (.cons (.file "a.py" ⟨.ok ⟨1, "m"⟩, .ok [.valid "x"]⟩) .nil))) .nil)
        (.cons (.dir "d" false (.cons (.file "a.py" ⟨.ok ⟨1, "m"⟩, .ok [.valid "x"]⟩)
          (.cons (.file "b.txt" ⟨.ok ⟨2, "m"⟩, .ok [.valid "y"]⟩) .nil))) .nil) ∧
      treeNodupE
        (.cons (.dir "d" false (.cons (.file "a.py" ⟨.ok ⟨1, "m"⟩, .ok [.valid "x"]⟩)
          (.cons (.file "b.txt" ⟨.ok ⟨2, "m"⟩, .ok [.valid "y"]⟩) .nil))) .nil) = true) ∧
    process_files "r" none [] none none false
        (.cons (.dir "d" false (.cons (.file "b.txt" ⟨.ok ⟨2, "m"⟩, .ok [.valid "y"]⟩)
          (.cons (.file "a.py" ⟨.ok ⟨1, "m"⟩, .ok [.valid "x"]⟩) .nil))) .nil) =
      process_files "r" none [] none none false
        (.cons (.dir "d" false (.cons (.file "a.py" ⟨.ok ⟨1, "m"⟩, .ok [.valid "x"]⟩)
          (.cons (.file "b.txt" ⟨.ok ⟨2, "m"⟩, .ok [.valid "y"]⟩) .nil))) .nil) :=
  ⟨⟨ReEnum.mk _ (List.Perm.refl _) rfl
      (PWReEnum.cons
        (EntryReEnum.dir "d" false
          (ReEnum.mk
            (EList.toList (.cons (.file "a.py" ⟨.ok ⟨1, "m"⟩, .ok [.valid "x"]⟩)
              (.cons (.file "b.txt" ⟨.ok ⟨2, "m"⟩, .ok [.valid "y"]⟩) .nil)))
            (List.Perm.swap _ _ _) rfl
            (PWReEnum.cons (EntryReEnum.file _ _)
              (PWReEnum.cons (EntryReEnum.file _ _) PWReEnum.nil))))
        PWReEnum.nil),
    by decide⟩,
    c9_deterministic_up_to_dir_order "r" none [] none none false
      (.cons (.dir "d" false (.cons (.file "a.py" ⟨.ok ⟨1, "m"⟩, .ok [.valid "x"]⟩)
        (.cons (.file "b.txt" ⟨.ok ⟨2, "m"⟩, .ok [.valid "y"]⟩) .nil))) .nil)
      (.cons (.dir "d" false (.cons (.file "b.txt" ⟨.ok ⟨2, "m"⟩, .ok [.valid "y"]⟩)
        (.cons (.file "a.py" ⟨.ok ⟨1, "m"⟩, .ok [.valid "x"]⟩) .nil))) .nil)
      (ReEnum.mk _ (List.Perm.refl _) rfl
        (PWReEnum.cons
          (EntryReEnum.dir "d" false
            (ReEnum.mk
              (EList.toList (.cons (.file "a.py" ⟨.ok ⟨1, "m"⟩, .ok [.valid "x"]⟩)
                (.cons (.file "b.txt" ⟨.ok ⟨2, "m"⟩, .ok [.valid "y"]⟩) .nil)))
              (List.Perm.swap _ _ _) rfl
              (PWReEnum.cons (EntryReEnum.file _ _)
                (PWReEnum.cons (EntryReEnum.file _ _) PWReEnum.nil))))
          PWReEnum.nil))
      (by decide)⟩

end Codeclip
